import Mathlib

/-!
Verification of the chord-inference pipeline of `basic-pitch-server/chord_inference.py`.

The pipeline is embedded shallowly over exact rationals (`ℚ`) in place of Python
floats.  The single numeric primitive that is irrational in the source — the Pearson
correlation computed by `np.corrcoef` inside `KeyDetector._correlate_with_profile`
(applied to the normalized, rotated Krumhansl profiles) — is threaded through the
embedding as an explicit function parameter `corr : Corr`; every theorem about the
pipeline quantifies over it, so it covers every value the floating-point correlation
could take.  Everything else is translated from the source line by line.
-/

namespace Amadeus

/-- `NoteEvent` (chord_inference.py, lines 32-46): a detected note with timing and
pitch information. -/
structure NoteEvent where
  onset : ℚ
  offset : ℚ
  pitch : ℤ
  confidence : ℚ
deriving DecidableEq, Repr, Inhabited

/-- `NoteEvent.duration` property: `offset - onset`. -/
def NoteEvent.duration (n : NoteEvent) : ℚ := n.offset - n.onset

/-- `NoteEvent.pitch_class` property: `pitch % 12`.  Python's `%` on ints returns a
nonnegative remainder for a positive modulus, which is `Int.emod`; the result is in
`[0, 12)` so we store it as a natural number. -/
def NoteEvent.pitchClass (n : NoteEvent) : ℕ := (n.pitch % 12).toNat

/-- `ChordEvent` (lines 48-57): a detected chord with timing and musical
information. -/
structure ChordEvent where
  onset : ℚ
  offset : ℚ
  chordSymbol : String
  confidence : ℚ
  pitchClasses : Finset ℕ
  rootPc : ℕ
  chordType : String
deriving DecidableEq, Inhabited

/-- The mode of a key; the source uses the strings `'major'` / `'minor'`. -/
inductive Mode
  | major
  | minor
deriving DecidableEq, Repr, Inhabited

/-- The string the source stores for a mode. -/
def Mode.str : Mode → String
  | .major => "major"
  | .minor => "minor"

/-- `KeyEstimate` (lines 59-64). -/
structure KeyEstimate where
  keyPc : ℕ
  mode : Mode
  confidence : ℚ
deriving DecidableEq, Repr, Inhabited

/-! ### Configuration constants (`ChordInferenceConfig`, lines 68-98) -/

def medianFilterSize : ℕ := 3
def minNoteDuration : ℚ := 6/100
def windowSize : ℚ := 2
def windowOverlap : ℚ := 2/10
def minNotesPerChord : ℕ := 2
def confidenceWeightDuration : Bool := true
def keyFilterConfidenceThreshold : ℚ := 15/100
def minChordDuration : ℚ := 3/10
def mergeThreshold : ℚ := 4/10

/-- `FUNCTIONAL_CHORDS` (lines 92-98); a Python set of strings, used only through
membership tests. -/
def functionalChords : List String :=
  ["major", "minor", "sus2", "sus4", "7", "m7", "maj7", "m11", "dim", "aug", "add9", "6"]

/-- `key_names` / `note_names` as used throughout the source (split in two
halves purely for layout). -/
def noteNames : List String :=
  ["C", "C#", "D", "D#", "E", "F"] ++ ["F#", "G", "G#", "A", "A#", "B"]

/-! ### List helpers mirroring Python primitives -/

/-- One insertion step of a stable insertion sort: `le x y = true` means `x` may be
placed before `y`. -/
def insertByLE (le : α → α → Bool) (x : α) : List α → List α
  | [] => [x]
  | y :: ys => if le x y then x :: y :: ys else y :: insertByLE le x ys

/-- Stable sort, modelling Python's stable `sorted` / `list.sort`: with
`le a b = (key a ≤ key b)` elements of equal key keep their original order. -/
def sortByLE (le : α → α → Bool) : List α → List α
  | [] => []
  | x :: xs => insertByLE le x (sortByLE le xs)

/-- `min` of a nonempty Python list of ints; the `[]` case is never reached at any
call site (each is guarded in the source) and is given a junk value. -/
def listMinNat : List ℕ → ℕ
  | [] => 0
  | x :: xs => xs.foldl min x

/-- `min` of a nonempty Python list of floats (junk value on `[]`, never reached). -/
def listMinQ : List ℚ → ℚ
  | [] => 0
  | x :: xs => xs.foldl min x

/-- `max` of a nonempty Python list of floats (junk value on `[]`, never reached). -/
def listMaxQ : List ℚ → ℚ
  | [] => 0
  | x :: xs => xs.foldl max x

/-- Python dict read `d.get(k, 0.0)` on an insertion-ordered association list. -/
def alGet (l : List (ℕ × ℚ)) (k : ℕ) : ℚ :=
  match l.find? (fun p => p.1 == k) with
  | some p => p.2
  | none => 0

/-- Python `defaultdict(float)` update `d[k] += v`: existing keys are updated in
place, a new key is appended (dicts preserve insertion order). -/
def alAdd (l : List (ℕ × ℚ)) (k : ℕ) (v : ℚ) : List (ℕ × ℚ) :=
  if l.any (fun p => p.1 == k) then
    l.map (fun p => if p.1 == k then (p.1, p.2 + v) else p)
  else l ++ [(k, v)]

/-- Median of three rationals. -/
def med3 (a b c : ℚ) : ℚ := max (min a b) (min (max a b) c)

/-- `scipy.signal.medfilt(xs, kernel_size=3)`: centered median filter with
zero-padding at both boundaries (scipy pads with zeros). -/
def medfilt3 (xs : List ℚ) : List ℚ :=
  (List.range xs.length).map fun i =>
    med3 (if i = 0 then 0 else xs.getD (i - 1) 0) (xs.getD i 0) (xs.getD (i + 1) 0)

/-- Closed form of the loop `current = start; while current <= stop: append(current);
current += res` (lines 287-291), for `res > 0`: the indices `k` with
`start + k*res ≤ stop` are exactly `k ≤ ⌊(stop-start)/res⌋`. -/
def timelinePoints (startT stopT res : ℚ) : List ℚ :=
  if stopT < startT then []
  else
    (List.range (((stopT - startT) / res).floor.toNat + 1)).map
      fun k : ℕ => startT + res * (k : ℚ)

/-- Closed form of the loop `current = start; while current < stop: ...;
current += step` (lines 506-522), for `step > 0`: the indices `k` with
`start + k*step < stop` are exactly `k < ⌈(stop-start)/step⌉`. -/
def windowStarts (startT stopT step : ℚ) : List ℚ :=
  (List.range ((stopT - startT) / step).ceil.toNat).map fun k : ℕ => startT + step * (k : ℚ)

/-- Generic strict-improvement scan: the accumulator `(b, v)` is replaced by
`(g c, f c)` exactly when `f c > v`.  Both the key detector's 24-candidate loop and
the chord identifier's root x shape loop are instances of this shape. -/
def scanG (f : α → ℚ) (g : α → β) (l : List α) (init : β × ℚ) : β × ℚ :=
  l.foldl (fun bv c => if f c > bv.2 then (g c, f c) else bv) init

/-! ### 4.1 Pitch smoother (`PitchSmoother.smooth_pitch_activity`, lines 206-255) -/

/-- The keys of the `defaultdict` grouping notes by pitch class, in insertion order
(order of first occurrence). -/
def groupKeys (notes : List NoteEvent) : List ℕ :=
  notes.foldl (fun acc n => if acc.contains n.pitchClass then acc else acc ++ [n.pitchClass]) []

/-- The body of the per-group loop of `smooth_pitch_activity` (lines 228-252) for
the group of pitch class `p` (the notes of that pitch class, in input order): sort
the group by onset (`events.sort` mutates the group in place, so the small-group
fallthrough also emits the sorted group), and median-filter the group's confidence
sequence when the group has at least `MEDIAN_FILTER_SIZE` elements; groups of at
most one element pass through before sorting. -/
def smoothGroup (notes : List NoteEvent) (p : ℕ) : List NoteEvent :=
  let events := notes.filter (fun n => n.pitchClass == p)
  if events.length ≤ 1 then events
  else
    let sorted := sortByLE (fun a b => decide (a.onset ≤ b.onset)) events
    let confs := sorted.map (·.confidence)
    if medianFilterSize ≤ confs.length then
      (sorted.zip (medfilt3 confs)).map fun ec =>
        { onset := ec.1.onset, offset := ec.1.offset, pitch := ec.1.pitch,
          confidence := ec.2 }
    else sorted

def smoothPitchActivity (notes : List NoteEvent) : List NoteEvent :=
  match notes with
  | [] => []
  | _ :: _ => (groupKeys notes).flatMap (smoothGroup notes)

/-! ### 4.2 Duration filter (`_filter_short_notes`, lines 441-452) -/

def filterShortNotes (events : List NoteEvent) : List NoteEvent :=
  events.filter fun e => decide (minNoteDuration ≤ e.duration)

/-! ### 4.3 Key detector (`KeyDetector.estimate_key`, lines 114-196) -/

/-- The type of the abstracted correlation primitive: given the normalized 12-bin
pitch-class distribution, a root and a mode, it returns the value the source computes
in `_correlate_with_profile` (Pearson correlation against the rotated normalized
Krumhansl profile, with `NaN` mapped to `0.0`). -/
def Corr : Type := List ℚ → ℕ → Mode → ℚ

/-- The short-note exclusion of `estimate_key` (lines 129-137): filter out notes
shorter than `MIN_NOTE_DURATION`, falling back to all notes if nothing remains. -/
def shortFiltered (notes : List NoteEvent) : List NoteEvent :=
  let f := notes.filter fun n => decide (minNoteDuration ≤ n.duration)
  if f.isEmpty then notes else f

/-- The weighted pitch-class histogram of `estimate_key` (lines 139-146):
`pc_weights[pc] += duration * confidence` over a 12-bin zero array. -/
def pcHist (notes : List NoteEvent) : List ℚ :=
  notes.foldl
    (fun h n => h.set n.pitchClass (h.getD n.pitchClass 0 + n.duration * n.confidence))
    (List.replicate 12 0)

/-- The 24 key candidates in the order the loop of `estimate_key` (lines 156-174)
examines them: roots 0..11, major before minor at each root. -/
def keyCands : List (ℕ × Mode) :=
  (List.range 12).flatMap fun r => [(r, Mode.major), (r, Mode.minor)]

/-- The position offset a mode contributes in the candidate order. -/
def modeIdx : Mode → ℕ
  | .major => 0
  | .minor => 1

/-- The 24-candidate scan of `estimate_key` (lines 156-174): the loop keeps
`best_key_pc`, `best_mode` and `best_correlation` (initially `0`, `'major'`, `-1`)
and replaces them only on a strictly greater correlation, examining the candidates
in the order of `keyCands`. -/
def keyScan (corr : ℕ → Mode → ℚ) : ℕ × Mode × ℚ :=
  let p := scanG (fun c : ℕ × Mode => corr c.1 c.2) (fun c => c) keyCands ((0, Mode.major), -1)
  (p.1.1, p.1.2, p.2)

/-- The body of `estimate_key` from the histogram on (lines 139-182), applied to the
already-(optionally-)filtered note list. -/
def estimateKeyCore (corr : Corr) (filt : List NoteEvent) : KeyEstimate :=
  let hist := pcHist filt
  if hist.sum = 0 then ⟨0, .major, 0⟩
  else
    let w := hist.map (· / hist.sum)
    let r := keyScan fun root m => corr w root m
    ⟨r.1, r.2.1, max 0 (min 1 r.2.2)⟩

/-- `estimate_key` (lines 114-182). -/
def estimateKey (corr : Corr) (notes : List NoteEvent) (excludeShort : Bool) : KeyEstimate :=
  match notes with
  | [] => ⟨0, .major, 0⟩
  | _ :: _ => estimateKeyCore corr (if excludeShort then shortFiltered notes else notes)

/-! ### 4.4 Key-aware note filter (`_apply_key_filtering`, lines 454-491) -/

/-- Scale intervals for a mode (lines 461-466). -/
def scaleIntervals (m : Mode) : List ℕ :=
  match m with
  | .major => [0, 2, 4, 5, 7, 9, 11]
  | .minor => [0, 2, 3, 5, 7, 8, 10]

/-- The diatonic pitch classes of the estimated key (line 468). -/
def scalePcs (k : KeyEstimate) : Finset ℕ :=
  ((scaleIntervals k.mode).map fun i => (k.keyPc + i) % 12).toFinset

def applyKeyFiltering (events : List NoteEvent) (k : KeyEstimate) : List NoteEvent :=
  if k.confidence < 1/2 then events
  else
    events.filter fun e =>
      decide (e.pitchClass ∈ scalePcs k) || decide (keyFilterConfidenceThreshold ≤ e.confidence)

/-! ### 4.6 Chord identifier (`_identify_chord`, lines 584-685, and `_is_in_key`,
lines 687-699) -/

def isInKey (pc : ℕ) (k : KeyEstimate) : Bool :=
  if k.confidence < 1/2 then true
  else decide (pc ∈ scalePcs k)

/-- A row of the `chord_tests` table (lines 622-649). -/
structure ChordShape where
  required : Finset ℕ
  ctype : String
  suffix : String
  base : ℚ
deriving DecidableEq, Inhabited

def chordTests : List ChordShape :=
  [⟨{0, 4, 7}, "major", "", 10⟩,
   ⟨{0, 3, 7}, "minor", "m", 10⟩,
   ⟨{0, 4, 7, 10}, "7", "7", 12⟩,
   ⟨{0, 3, 7, 10}, "m7", "m7", 12⟩,
   ⟨{0, 4, 7, 11}, "maj7", "maj7", 12⟩,
   ⟨{0, 3, 7, 10, 2, 5}, "m11", "m11", 14⟩,
   ⟨{0, 4, 7, 2}, "add9", "add9", 11⟩,
   ⟨{0, 4, 7, 9}, "6", "6", 11⟩,
   ⟨{0, 3, 6}, "dim", "dim", 9⟩,
   ⟨{0, 4, 8}, "aug", "aug", 9⟩,
   ⟨{0, 2, 7}, "sus2", "sus2", 8⟩,
   ⟨{0, 5, 7}, "sus4", "sus4", 8⟩,
   ⟨{0, 4}, "major", "", 6⟩,
   ⟨{0, 3}, "minor", "m", 6⟩,
   ⟨{0, 7}, "major", "", 4⟩]

/-- `intervals = [(pc - root) % 12 for pc in pitch_classes]` (line 599); Python's
`%` on ints keeps the result in `[0, 12)`. -/
def intervalsFrom (root : ℕ) (pcs : List ℕ) : List ℕ :=
  pcs.map fun pc : ℕ => (((pc : ℤ) - (root : ℤ)) % 12).toNat

/-- The root-strength weighting (lines 606-619).  Both the weight bonus and the
lowest-note bonus sit inside the `if pc_weights:` truthiness test. -/
def rootStrengthBonus (pcw : List (ℕ × ℚ)) (pcs : List ℕ) (root : ℕ) : ℚ :=
  if pcw.isEmpty then 1
  else
    let rootWeight := alGet pcw root
    let maxWeight := listMaxQ (pcw.map (·.2))
    let b := if 0 < rootWeight then 1 + rootWeight / maxWeight * (8/10) else 1
    if root = listMinNat pcs then b * (13/10) else b

/-- The score of one matching `(root, shape)` candidate (lines 651-672):
`base * |required|/|intervals|`, x1.5 on an exact match, x the root-strength bonus,
x1.2 when the root is in key, x1.4 for the tonic chord of the key's mode. -/
def shapeScore (s : ChordShape) (iset : Finset ℕ) (rsb : ℚ) (root : ℕ) (k : KeyEstimate) : ℚ :=
  let sc := s.base * ((s.required.card : ℚ) / (iset.card : ℚ))
  let sc := if iset = s.required then sc * (15/10) else sc
  let sc := sc * rsb
  let sc := if isInKey root k then sc * (12/10) else sc
  if root = k.keyPc ∧
      ((k.mode = .major ∧ s.ctype = "major") ∨ (k.mode = .minor ∧ s.ctype = "minor")) then
    sc * (14/10)
  else sc

/-- The per-shape step of the inner loop of `_identify_chord` (lines 651-677).
(The source computes `intervals_set`, `root_name` and `root_strength_bonus` once per
root before the shape loop; they are pure, so inlining them here is equivalent.) -/
def identifyShapeStep (pcs : List ℕ) (k : KeyEstimate) (pcw : List (ℕ × ℚ)) (root : ℕ)
    (best : Option (String × String) × ℚ) (s : ChordShape) : Option (String × String) × ℚ :=
  if s.required ⊆ (intervalsFrom root pcs).toFinset then
    let score :=
      shapeScore s (intervalsFrom root pcs).toFinset (rootStrengthBonus pcw pcs root) root k
    if score > best.2 then (some (noteNames.getD root "" ++ s.suffix, s.ctype), score) else best
  else best

/-- The per-root body of the outer loop of `_identify_chord` (lines 597-677). -/
def identifyRootFold (pcs : List ℕ) (k : KeyEstimate) (pcw : List (ℕ × ℚ))
    (best : Option (String × String) × ℚ) (root : ℕ) : Option (String × String) × ℚ :=
  chordTests.foldl (identifyShapeStep pcs k pcw root) best

/-- `_identify_chord` (lines 584-685): a strict-improvement scan over all candidate
roots (in the order of the given `pitch_classes` list) and all table shapes, keeping
`(symbol, chord_type)` (`best_score` starts at 0, `best_match` at `None`); if no
shape's required interval set is a subset of any candidate's interval set the
fallback is the lowest pitch class with symbol `"<root>?"` and type `unknown`. -/
def identifyChord (pitchClasses : List ℕ) (k : KeyEstimate) (pcw : List (ℕ × ℚ)) :
    String × String :=
  match pitchClasses with
  | [] => ("N", "unknown")
  | _ :: _ =>
    let best := pitchClasses.foldl (identifyRootFold pitchClasses k pcw)
      ((none : Option (String × String)), (0 : ℚ))
    match best.1 with
    | some st => st
    | none => (noteNames.getD (listMinNat pitchClasses) "" ++ "?", "unknown")

/-- The candidate `(root, shape)` pairs of `_identify_chord` in the order the nested
loops examine them: roots in the order of the given `pitch_classes` list, all table
shapes at each root. -/
def identCands (pcs : List ℕ) : List (ℕ × ChordShape) :=
  pcs.flatMap fun root => chordTests.map fun s => (root, s)

/-- The score `_identify_chord` assigns a candidate: the computed `shapeScore` when
the shape's required intervals are a subset of the candidate root's interval set,
and 0 (never selected, since matching scores are positive) otherwise. -/
def identScore (pcs : List ℕ) (k : KeyEstimate) (pcw : List (ℕ × ℚ))
    (c : ℕ × ChordShape) : ℚ :=
  if c.2.required ⊆ (intervalsFrom c.1 pcs).toFinset then
    shapeScore c.2 (intervalsFrom c.1 pcs).toFinset (rootStrengthBonus pcw pcs c.1) c.1 k
  else 0

/-- The `(symbol, chord_type)` pair a candidate would produce. -/
def identSym (c : ℕ × ChordShape) : Option (String × String) :=
  some (noteNames.getD c.1 "" ++ c.2.suffix, c.2.ctype)

/-! ### 4.5 Windowed chord detector (`_analyze_window`, lines 527-582, and
`_detect_chords_in_windows`, lines 493-525) -/

/-- The weighted pitch-class histogram of a window (lines 534-549): weight =
`confidence * overlap_duration` with the window. -/
def windowPcWeights (notes : List NoteEvent) (startT stopT : ℚ) : List (ℕ × ℚ) :=
  notes.foldl
    (fun d n =>
      let overlap := max 0 (min n.offset stopT - max n.onset startT)
      let w := if confidenceWeightDuration then n.confidence * overlap else n.confidence
      alAdd d n.pitchClass w)
    []

/-- `_analyze_window`. -/
def analyzeWindow (notes : List NoteEvent) (startT stopT : ℚ) (k : KeyEstimate) :
    Option ChordEvent :=
  match notes with
  | [] => none
  | _ :: _ =>
    let pcw := windowPcWeights notes startT stopT
    if pcw.isEmpty then none
    else
      let sortedPcs := sortByLE (fun a b => decide (b.2 ≤ a.2)) pcw
      let maxWeight := (sortedPcs.headD (0, 0)).2
      let threshold := maxWeight * (2/10)
      let significant := ((sortedPcs.filter fun p => decide (threshold ≤ p.2)).map (·.1)).take 6
      if significant.length < minNotesPerChord then none
      else
        let sc := identifyChord significant k pcw
        let totalWeight := (pcw.map (·.2)).sum
        let avgConf := totalWeight / (notes.length : ℚ)
        some ⟨startT, stopT, sc.1, min avgConf 1, significant.toFinset,
              listMinNat significant, sc.2⟩

/-- `_detect_chords_in_windows`: fixed windows of length `WINDOW_SIZE` advancing by
`WINDOW_SIZE - WINDOW_OVERLAP` from the earliest onset, a note belonging to a window
if `onset < window_end and offset > window_start`. -/
def detectChordsInWindows (events : List NoteEvent) (k : KeyEstimate) : List ChordEvent :=
  match events with
  | [] => []
  | _ :: _ =>
    let sorted := sortByLE (fun a b => decide (a.onset ≤ b.onset)) events
    let startT := (sorted.headD default).onset
    let stopT := listMaxQ (sorted.map (·.offset))
    (windowStarts startT stopT (windowSize - windowOverlap)).filterMap fun t =>
      let windowNotes := sorted.filter fun e => decide (e.onset < t + windowSize ∧ t < e.offset)
      if minNotesPerChord ≤ windowNotes.length then analyzeWindow windowNotes t (t + windowSize) k
      else none

/-! ### 4.7 Harmony filter (`_apply_harmony_filtering`, lines 701-757) -/

def chordRepeats (c : ChordEvent) (all : List ChordEvent) : Bool :=
  2 ≤ (all.filter fun x => x.chordSymbol == c.chordSymbol).length

def isChordRootInKey (c : ChordEvent) (k : KeyEstimate) : Bool :=
  if k.confidence < 6/10 then true
  else isInKey c.rootPc k

/-- The per-chord keep decision of `_apply_harmony_filtering`; `all` is the full raw
candidate list (used by the repeat test). -/
def keepChord (k : KeyEstimate) (all : List ChordEvent) (c : ChordEvent) : Bool :=
  if (c.chordSymbol.data.contains '?' || c.chordSymbol.data.contains '!') &&
      decide (c.confidence < 6/10) && decide (c.offset - c.onset < 1) then
    false
  else if functionalChords.contains c.chordType && isChordRootInKey c k then true
  else if !isChordRootInKey c k then
    (decide (7/10 ≤ c.confidence) && decide (1 ≤ c.offset - c.onset)) ||
      (c.chordType == "m11" && decide (6/10 ≤ c.confidence))
  else
    decide (3/10 ≤ c.confidence) || decide (6/10 ≤ c.offset - c.onset) || chordRepeats c all

def applyHarmonyFiltering (chords : List ChordEvent) (k : KeyEstimate) : List ChordEvent :=
  chords.filter (keepChord k chords)

/-! ### 4.8 Chord window smoother (`ChordWindowSmoother.smooth_chord_progression`,
lines 262-376) -/

def timelineResolution : ℚ := 1/2

/-- The order-of-first-occurrence key list of a `Counter`. -/
def firstOccurrences (l : List String) : List String :=
  l.foldl (fun acc s => if acc.contains s then acc else acc ++ [s]) []

/-- `Counter(s for s in window if s != "N").most_common(1)[0][0]` with the guard
`if symbol_counts:` (lines 316-321): the most frequent non-`"N"` label, ties broken
by first encounter; `"N"` when the window holds only `"N"`. -/
def mostCommonNonN (win : List String) : String :=
  let nonN := win.filter fun s => !(s == "N")
  match firstOccurrences nonN with
  | [] => "N"
  | k0 :: ks => ks.foldl (fun best s => if nonN.count s > nonN.count best then s else best) k0

/-- The label-smoothing pass (lines 307-321): for each index the window
`[max(0, i - fw/2), that + fw)` clamped to the array, most frequent non-`"N"` label.
(`i - fw / 2` is natural subtraction, which equals Python's `max(0, i - fw//2)`.) -/
def smoothSymbols (symbols : List String) (fw : ℕ) : List String :=
  (List.range symbols.length).map fun i =>
    let ws := i - fw / 2
    let we := min symbols.length (ws + fw)
    mostCommonNonN ((symbols.drop ws).take (we - ws))

/-- Reconstructing a chord for a finished run (lines 332-347 and 353-368): nothing
for `"N"`, otherwise metadata comes from the first original chord whose symbol equals
the run's label; no chord is emitted when no original chord matches. -/
def emitRun (cs : List ChordEvent) (sym : String) (onset stop : ℚ) : List ChordEvent :=
  if sym = "N" then []
  else
    match cs.find? (fun c => c.chordSymbol == sym) with
    | some o => [⟨onset, stop, sym, o.confidence, o.pitchClasses, o.rootPc, o.chordType⟩]
    | none => []

/-- The resegmentation loop (lines 324-368) over indices `1 .. len-1`: a run is
closed when the label changes or the last index is reached; after the loop the
pending run is closed at `end_time`. -/
def resegFold (cs : List ChordEvent) (syms : List String) (pts : List ℚ) (stopT : ℚ) :
    List ℕ → String → ℚ → List ChordEvent → List ChordEvent
  | [], cur, st, acc => acc ++ emitRun cs cur st stopT
  | i :: is, cur, st, acc =>
    if syms.getD i "N" ≠ cur ∨ i = syms.length - 1 then
      resegFold cs syms pts stopT is (syms.getD i "N") (pts.getD i 0)
        (acc ++ emitRun cs cur st (pts.getD (i - 1) 0 + timelineResolution))
    else resegFold cs syms pts stopT is cur st acc

/-- `smooth_chord_progression`.  (The guard `if not chord_events: return []` on
line 276 sits after the `len(chord_events) <= 2` early return and is therefore
unreachable; it is dropped here.) -/
def smoothChordProgression (chordEvents : List ChordEvent) : List ChordEvent :=
  if chordEvents.length ≤ 2 then chordEvents
  else
      let startT := listMinQ (chordEvents.map (·.onset))
      let stopT := listMaxQ (chordEvents.map (·.offset))
      if stopT - startT ≤ 0 then chordEvents
      else
        let pts := timelinePoints startT stopT timelineResolution
        let symbols := pts.map fun t =>
          match chordEvents.find? (fun c => decide (c.onset ≤ t ∧ t < c.offset)) with
          | some c => if c.chordSymbol = "" then "N" else c.chordSymbol
          | none => "N"
        let fw := max 3 ((1 / timelineResolution).floor.toNat)
        if fw ≤ symbols.length then
          let smoothed := smoothSymbols symbols fw
          match smoothed with
          | [] => []
          | s0 :: _ =>
            resegFold chordEvents smoothed pts stopT
              (List.range' 1 (smoothed.length - 1)) s0 (pts.getD 0 0) []
        else chordEvents

/-! ### 4.9 Chord merger (`_merge_similar_chords`, lines 759-802) -/

def shouldMerge (cur next : ChordEvent) : Bool :=
  let sameChord := cur.chordSymbol == next.chordSymbol
  let similarChord := cur.rootPc == next.rootPc && cur.chordType == next.chordType
  let closeInTime := decide (next.onset - cur.offset ≤ mergeThreshold)
  let overlapping := decide (next.onset < cur.offset)
  (sameChord && (closeInTime || overlapping)) || (similarChord && overlapping)

def mergeTwo (cur next : ChordEvent) : ChordEvent :=
  ⟨cur.onset, max cur.offset next.offset, cur.chordSymbol,
   (cur.confidence + next.confidence) / 2, cur.pitchClasses ∪ next.pitchClasses,
   cur.rootPc, cur.chordType⟩

/-- One step of the `_merge_similar_chords` left-to-right pass: the state is the
running `current` chord and the already-flushed output. -/
def mergeStep (s : ChordEvent × List ChordEvent) (next : ChordEvent) :
    ChordEvent × List ChordEvent :=
  if shouldMerge s.1 next then (mergeTwo s.1 next, s.2)
  else (next, s.2 ++ [s.1])

def mergeSimilarChords : List ChordEvent → List ChordEvent
  | [] => []
  | [c] => [c]
  | c :: rest =>
    let r := rest.foldl mergeStep (c, [])
    r.2 ++ [r.1]

/-! ### 4.10 Stability filter (`_ensure_stability`, lines 804-823) -/

def ensureStability (chords : List ChordEvent) : List ChordEvent :=
  chords.filter fun c => decide (minChordDuration ≤ c.offset - c.onset)

/-! ### 4.11 Engine orchestrator (`infer_chords`, lines 389-439).  The per-stage
`self.stats` counters are diagnostic only and are not modelled. -/

def inferChords (corr : Corr) (noteEvents : List NoteEvent) :
    List ChordEvent × KeyEstimate :=
  let smoothed := smoothPitchActivity noteEvents
  let filtered := filterShortNotes smoothed
  let key := estimateKey corr filtered true
  let keyFiltered := applyKeyFiltering filtered key
  let raw := detectChordsInWindows keyFiltered key
  let harmonyFiltered := applyHarmonyFiltering raw key
  let smoothedChords := smoothChordProgression harmonyFiltered
  let merged := mergeSimilarChords smoothedChords
  (ensureStability merged, key)

/-! ### Top level (`process_note_events`, lines 839-895) -/

/-- A raw input record: each field is `some v` when the field is present and its
value converts (`float(...)` / `int(...)`) without raising, `none` otherwise.  This
models the dynamic typing of the input dicts: the source catches `KeyError`,
`ValueError` and `TypeError` per record. -/
structure RawNote where
  onset : Option ℚ
  offset : Option ℚ
  pitch : Option ℤ
  confidence : Option ℚ
deriving DecidableEq, Repr, Inhabited

/-- The per-record conversion (lines 853-864): any missing or unconvertible field
makes the whole record invalid, and invalid records are skipped. -/
def parseNote (r : RawNote) : Option NoteEvent :=
  match r.onset, r.offset, r.pitch, r.confidence with
  | some a, some b, some p, some c => some ⟨a, b, p, c⟩
  | _, _, _, _ => none

/-- An output chord dict (lines 877-883); `list(chord.pitch_classes)` is modelled as
the sorted list of the set's elements. -/
structure ChordDict where
  onset : ℚ
  offset : ℚ
  chord : String
  confidence : ℚ
  pitchClasses : List ℕ
deriving DecidableEq, Repr, Inhabited

structure KeyInfo where
  key : String
  mode : String
  confidence : ℚ
deriving DecidableEq, Repr, Inhabited

def chordToDict (c : ChordEvent) : ChordDict :=
  ⟨c.onset, c.offset, c.chordSymbol, c.confidence, c.pitchClasses.sort (· ≤ ·)⟩

/-- `process_note_events`. -/
def processNoteEvents (corr : Corr) (rawNotes : List RawNote) :
    List ChordDict × KeyInfo :=
  let noteEvents := rawNotes.filterMap parseNote
  match noteEvents with
  | [] => ([], ⟨"C", "major", 0⟩)
  | _ :: _ =>
    let r := inferChords corr noteEvents
    (r.1.map chordToDict, ⟨noteNames.getD r.2.keyPc "", r.2.mode.str, r.2.confidence⟩)

/-! ### Exception-explicit mirror of the pipeline (for claim C3)

The pure definitions above model the values the Python code computes; the source's
partial primitives (`list[i]`, `min`/`max` of a possibly-empty sequence, division)
sit behind guards, and the pure model gives them junk values at unreachable spots.
To verify that no exception can propagate out of `process_note_events`, the
following `Except`-threaded mirror raises exactly where the Python primitive would
raise (`IndexError`, `ValueError`, `ZeroDivisionError`), and the totality theorem
shows it always returns `ok` of the pure model's value. -/

/-- Checked division: Python raises `ZeroDivisionError` on a zero denominator. -/
def qdivE (a b : ℚ) : Except String ℚ :=
  if b = 0 then .error "ZeroDivisionError" else .ok (a / b)

/-- Checked list indexing: Python raises `IndexError` out of bounds. -/
def getE (l : List α) (i : ℕ) : Except String α :=
  match l[i]? with
  | some x => .ok x
  | none => .error "IndexError"

/-- Checked `min` of a list of ints: Python raises `ValueError` on an empty one. -/
def listMinNatE (l : List ℕ) : Except String ℕ :=
  match l with
  | [] => .error "ValueError"
  | _ :: _ => .ok (listMinNat l)

/-- Checked `min` of a list of floats. -/
def listMinQE (l : List ℚ) : Except String ℚ :=
  match l with
  | [] => .error "ValueError"
  | _ :: _ => .ok (listMinQ l)

/-- Checked `max` of a list of floats. -/
def listMaxQE (l : List ℚ) : Except String ℚ :=
  match l with
  | [] => .error "ValueError"
  | _ :: _ => .ok (listMaxQ l)

/-- Checked `note_names[r]` / `key_names[r]`. -/
def noteNameE (r : ℕ) : Except String String :=
  if r < 12 then .ok (noteNames.getD r "") else .error "IndexError"

/-- Elementwise checked division of a histogram by its total (`histogram / total`
on a numpy array, modelled entrywise). -/
def mapDivE (s : ℚ) : List ℚ → Except String (List ℚ)
  | [] => .ok []
  | x :: xs => do
    let y ← qdivE x s
    let ys ← mapDivE s xs
    .ok (y :: ys)

/-- `estimate_key`'s histogram body with the normalization division checked. -/
def estimateKeyCoreE (corr : Corr) (filt : List NoteEvent) : Except String KeyEstimate :=
  let hist := pcHist filt
  if hist.sum = 0 then .ok ⟨0, .major, 0⟩
  else do
    let w ← mapDivE hist.sum hist
    let r := keyScan fun root m => corr w root m
    .ok ⟨r.1, r.2.1, max 0 (min 1 r.2.2)⟩

def estimateKeyE (corr : Corr) (notes : List NoteEvent) (excludeShort : Bool) :
    Except String KeyEstimate :=
  match notes with
  | [] => .ok ⟨0, .major, 0⟩
  | _ :: _ => estimateKeyCoreE corr (if excludeShort then shortFiltered notes else notes)

/-- The root-strength weighting with `max(pc_weights.values())` and the
normalization division checked. -/
def rootStrengthBonusE (pcw : List (ℕ × ℚ)) (pcs : List ℕ) (root : ℕ) :
    Except String ℚ :=
  if pcw.isEmpty then .ok 1
  else do
    let rootWeight := alGet pcw root
    let maxWeight ← listMaxQE (pcw.map (·.2))
    let b ←
      if 0 < rootWeight then do
        let q ← qdivE rootWeight maxWeight
        pure (1 + q * (8/10))
      else pure (1 : ℚ)
    .ok (if root = listMinNat pcs then b * (13/10) else b)

/-- The candidate score with the `match_ratio` division checked. -/
def shapeScoreE (s : ChordShape) (iset : Finset ℕ) (rsb : ℚ) (root : ℕ)
    (k : KeyEstimate) : Except String ℚ := do
  let ratio ← qdivE (s.required.card : ℚ) (iset.card : ℚ)
  let sc := s.base * ratio
  let sc := if iset = s.required then sc * (15/10) else sc
  let sc := sc * rsb
  let sc := if isInKey root k then sc * (12/10) else sc
  if root = k.keyPc ∧
      ((k.mode = .major ∧ s.ctype = "major") ∨ (k.mode = .minor ∧ s.ctype = "minor")) then
    .ok (sc * (14/10))
  else .ok sc

/-- The per-shape step with the `match_ratio` division checked. -/
def identifyShapeStepE (pcs : List ℕ) (k : KeyEstimate) (rootName : String) (rsb : ℚ)
    (root : ℕ) (best : Option (String × String) × ℚ) (s : ChordShape) :
    Except String (Option (String × String) × ℚ) :=
  if s.required ⊆ (intervalsFrom root pcs).toFinset then do
    let score ← shapeScoreE s (intervalsFrom root pcs).toFinset rsb root k
    pure (if score > best.2 then (some (rootName ++ s.suffix, s.ctype), score) else best)
  else pure best

/-- The per-root loop body with `note_names[root]` and its divisions checked. -/
def identifyRootFoldE (pcs : List ℕ) (k : KeyEstimate) (pcw : List (ℕ × ℚ))
    (best : Option (String × String) × ℚ) (root : ℕ) :
    Except String (Option (String × String) × ℚ) := do
  let rootName ← noteNameE root
  let rsb ← rootStrengthBonusE pcw pcs root
  chordTests.foldlM (identifyShapeStepE pcs k rootName rsb root) best

def identifyChordE (pitchClasses : List ℕ) (k : KeyEstimate) (pcw : List (ℕ × ℚ)) :
    Except String (String × String) :=
  match pitchClasses with
  | [] => .ok ("N", "unknown")
  | _ :: _ => do
    let best ← pitchClasses.foldlM (identifyRootFoldE pitchClasses k pcw)
      ((none : Option (String × String)), (0 : ℚ))
    match best.1 with
    | some st => .ok st
    | none => do
      let mn ← listMinNatE pitchClasses
      let nm ← noteNameE mn
      .ok (nm ++ "?", "unknown")

/-- `_analyze_window` with `sorted_pcs[0]`, `min(significant_pcs)` and the average
division checked. -/
def analyzeWindowE (notes : List NoteEvent) (startT stopT : ℚ) (k : KeyEstimate) :
    Except String (Option ChordEvent) :=
  match notes with
  | [] => .ok none
  | _ :: _ =>
    let pcw := windowPcWeights notes startT stopT
    if pcw.isEmpty then .ok none
    else do
      let sortedPcs := sortByLE (fun a b => decide (b.2 ≤ a.2)) pcw
      let top ← getE sortedPcs 0
      let threshold := top.2 * (2/10)
      let significant := ((sortedPcs.filter fun p => decide (threshold ≤ p.2)).map (·.1)).take 6
      if significant.length < minNotesPerChord then .ok none
      else do
        let sc ← identifyChordE significant k pcw
        let avgConf ← qdivE ((pcw.map (·.2)).sum) ((notes.length : ℚ))
        let mn ← listMinNatE significant
        .ok (some ⟨startT, stopT, sc.1, min avgConf 1, significant.toFinset, mn, sc.2⟩)

/-- The per-window step of `_detect_chords_in_windows` (append when a chord was
found), with `_analyze_window`'s partial primitives checked. -/
def windowStepE (sorted : List NoteEvent) (k : KeyEstimate) (acc : List ChordEvent)
    (t : ℚ) : Except String (List ChordEvent) := do
  let windowNotes := sorted.filter fun e => decide (e.onset < t + windowSize ∧ t < e.offset)
  if minNotesPerChord ≤ windowNotes.length then do
    let c? ← analyzeWindowE windowNotes t (t + windowSize) k
    match c? with
    | some c => pure (acc ++ [c])
    | none => pure acc
  else pure acc

/-- `_detect_chords_in_windows` with `sorted_events[0]` and the offset `max`
checked; the append-if-chord loop is a monadic fold. -/
def detectChordsInWindowsE (events : List NoteEvent) (k : KeyEstimate) :
    Except String (List ChordEvent) :=
  match events with
  | [] => .ok []
  | _ :: _ => do
    let sorted := sortByLE (fun a b => decide (a.onset ≤ b.onset)) events
    let first ← getE sorted 0
    let stopT ← listMaxQE (sorted.map (·.offset))
    (windowStarts first.onset stopT (windowSize - windowOverlap)).foldlM
      (windowStepE sorted k) []

/-- The resegmentation loop with `chord_symbols[i]` and `timeline_points[i-1]` /
`timeline_points[i]` checked. -/
def resegFoldE (cs : List ChordEvent) (syms : List String) (pts : List ℚ) (stopT : ℚ) :
    List ℕ → String → ℚ → List ChordEvent → Except String (List ChordEvent)
  | [], cur, st, acc => .ok (acc ++ emitRun cs cur st stopT)
  | i :: is, cur, st, acc => do
    let si ← getE syms i
    if si ≠ cur ∨ i = syms.length - 1 then do
      let pprev ← getE pts (i - 1)
      let pi ← getE pts i
      resegFoldE cs syms pts stopT is si pi (acc ++ emitRun cs cur st (pprev + timelineResolution))
    else resegFoldE cs syms pts stopT is cur st acc

/-- `smooth_chord_progression` with the onset `min` / offset `max`,
`timeline_points[0]` and the loop indexings checked. -/
def smoothChordProgressionE (chordEvents : List ChordEvent) :
    Except String (List ChordEvent) :=
  if chordEvents.length ≤ 2 then .ok chordEvents
  else do
    let startT ← listMinQE (chordEvents.map (·.onset))
    let stopT ← listMaxQE (chordEvents.map (·.offset))
    if stopT - startT ≤ 0 then .ok chordEvents
    else
      let pts := timelinePoints startT stopT timelineResolution
      let symbols := pts.map fun t =>
        match chordEvents.find? (fun c => decide (c.onset ≤ t ∧ t < c.offset)) with
        | some c => if c.chordSymbol = "" then "N" else c.chordSymbol
        | none => "N"
      let fw := max 3 ((1 / timelineResolution).floor.toNat)
      if fw ≤ symbols.length then
        let smoothed := smoothSymbols symbols fw
        match smoothed with
        | [] => .ok []
        | s0 :: _ => do
          let t0 ← getE pts 0
          resegFoldE chordEvents smoothed pts stopT
            (List.range' 1 (smoothed.length - 1)) s0 t0 []
      else .ok chordEvents

/-- The orchestrator; stages with no unchecked partial primitive (pitch smoothing,
the duration / key / harmony filters, the merger with its guarded `chords[0]`, and
the stability filter) are the pure definitions. -/
def inferChordsE (corr : Corr) (noteEvents : List NoteEvent) :
    Except String (List ChordEvent × KeyEstimate) := do
  let smoothed := smoothPitchActivity noteEvents
  let filtered := filterShortNotes smoothed
  let key ← estimateKeyE corr filtered true
  let keyFiltered := applyKeyFiltering filtered key
  let raw ← detectChordsInWindowsE keyFiltered key
  let harmonyFiltered := applyHarmonyFiltering raw key
  let smoothedChords ← smoothChordProgressionE harmonyFiltered
  let merged := mergeSimilarChords smoothedChords
  .ok (ensureStability merged, key)

/-- `process_note_events` with the `key_names[key_pc]` lookup checked. -/
def processNoteEventsE (corr : Corr) (rawNotes : List RawNote) :
    Except String (List ChordDict × KeyInfo) :=
  let noteEvents := rawNotes.filterMap parseNote
  match noteEvents with
  | [] => .ok ([], ⟨"C", "major", 0⟩)
  | _ :: _ => do
    let r ← inferChordsE corr noteEvents
    let nm ← noteNameE r.2.keyPc
    .ok (r.1.map chordToDict, ⟨nm, r.2.mode.str, r.2.confidence⟩)

/-! ### Definitions written from the spec's words, for comparison with the code -/

/-- Spec 4.1 / claim C6 describe the boundary handling of the confidence median
filter as a standard centered median filter with a symmetric / edge-replicated
window.  This is that filter, written from the spec's words: out-of-range window
positions are clamped to the first / last element.  (The code instead calls
`scipy.signal.medfilt`, which zero-pads; see `medfilt3`.) -/
def specMedfilt3EdgeReplicated (xs : List ℚ) : List ℚ :=
  (List.range xs.length).map fun i =>
    med3 (xs.getD (i - 1) 0) (xs.getD i 0) (xs.getD (min (i + 1) (xs.length - 1)) 0)

/-- The claim C2 non-overlap property, written from the spec's words: for any two
distinct chords in the list, one's offset is at most the other's onset. -/
def pairwiseNonOverlapping (l : List ChordEvent) : Prop :=
  l.Pairwise fun a b => a.offset ≤ b.onset ∨ b.offset ≤ a.onset

/-- Onset-sortedness of a chord list. -/
def onsetSorted (l : List ChordEvent) : Prop :=
  l.Pairwise fun a b => a.onset ≤ b.onset

/-- A concrete instance of the abstracted correlation primitive, used to evaluate
the pipeline on inputs whose execution never reaches the correlation (zero-weight
histograms take the early return). -/
def corrZero : Corr := fun _ _ _ => 0

/-- The invariant of claim C1 on a chord event. -/
def ChordInv (c : ChordEvent) : Prop :=
  0 ≤ c.confidence ∧ c.confidence ≤ 1 ∧ c.rootPc ∈ c.pitchClasses

/-! ## Helper lemmas -/

theorem containsNat_iff {l : List ℕ} {a : ℕ} : l.contains a = true ↔ a ∈ l := by
  simp [List.contains_iff_exists_mem_beq]

theorem insertByLE_perm (le : α → α → Bool) (x : α) (l : List α) :
    (insertByLE le x l).Perm (x :: l) := by
  induction l with
  | nil => simp [insertByLE]
  | cons y ys ih =>
    simp only [insertByLE]
    split
    · exact List.Perm.refl _
    · exact ((ih.cons y).trans (List.Perm.swap x y ys))

theorem sortByLE_perm (le : α → α → Bool) (l : List α) : (sortByLE le l).Perm l := by
  induction l with
  | nil => simp [sortByLE]
  | cons x xs ih => exact (insertByLE_perm le x (sortByLE le xs)).trans (ih.cons x)

theorem sortByLE_mem (le : α → α → Bool) (l : List α) (a : α) :
    a ∈ sortByLE le l ↔ a ∈ l := (sortByLE_perm le l).mem_iff

theorem sortByLE_length (le : α → α → Bool) (l : List α) :
    (sortByLE le l).length = l.length := (sortByLE_perm le l).length_eq

theorem medfilt3_length (xs : List ℚ) : (medfilt3 xs).length = xs.length := by
  simp [medfilt3]

theorem getD_mem_or_default (xs : List ℚ) (i : ℕ) (d : ℚ) :
    xs.getD i d ∈ xs ∨ xs.getD i d = d := by
  by_cases h : i < xs.length
  · left
    rw [List.getD_eq_getElem xs d h]
    exact xs.getElem_mem h
  · right
    exact List.getD_eq_default xs d (Nat.le_of_not_lt h)

theorem med3_bounds {a b c : ℚ} (ha : 0 ≤ a ∧ a ≤ 1) (hb : 0 ≤ b ∧ b ≤ 1)
    (hc : 0 ≤ c ∧ c ≤ 1) : 0 ≤ med3 a b c ∧ med3 a b c ≤ 1 := by
  unfold med3
  constructor
  · exact le_max_of_le_left (le_min ha.1 hb.1)
  · exact max_le (min_le_of_left_le ha.2) (min_le_of_right_le hc.2)

theorem medfilt3_bounds (xs : List ℚ) (h : ∀ x ∈ xs, 0 ≤ x ∧ x ≤ 1) :
    ∀ y ∈ medfilt3 xs, 0 ≤ y ∧ y ≤ 1 := by
  intro y hy
  simp only [medfilt3, List.mem_map, List.mem_range] at hy
  obtain ⟨i, _, rfl⟩ := hy
  have hd : ∀ j d, d = (0 : ℚ) ∨ (0 ≤ d ∧ d ≤ 1) → 0 ≤ xs.getD j d ∧ xs.getD j d ≤ 1 ∨
      (xs.getD j d = d) := by
    intro j d _
    rcases getD_mem_or_default xs j d with hm | hm
    · exact Or.inl (h _ hm)
    · exact Or.inr hm
  have h01 : (0 : ℚ) ≤ 0 ∧ (0 : ℚ) ≤ 1 := by norm_num
  apply med3_bounds
  · split
    · exact h01
    · rcases getD_mem_or_default xs (i - 1) 0 with hm | hm
      · exact h _ hm
      · rw [hm]; exact h01
  · rcases getD_mem_or_default xs i 0 with hm | hm
    · exact h _ hm
    · rw [hm]; exact h01
  · rcases getD_mem_or_default xs (i + 1) 0 with hm | hm
    · exact h _ hm
    · rw [hm]; exact h01

/-! ## C6: the pitch smoother -/

theorem groupKeys_fold_mem (notes : List NoteEvent) :
    ∀ (acc : List ℕ) (q : ℕ),
      (q ∈ notes.foldl
          (fun acc n => if acc.contains n.pitchClass then acc else acc ++ [n.pitchClass]) acc) ↔
        q ∈ acc ∨ ∃ n ∈ notes, n.pitchClass = q := by
  induction notes with
  | nil => intro acc q; simp
  | cons n ns ih =>
    intro acc q
    simp only [List.foldl_cons]
    rw [ih]
    by_cases hc : acc.contains n.pitchClass
    · rw [if_pos hc]
      constructor
      · rintro (h | h)
        · exact Or.inl h
        · exact Or.inr (by obtain ⟨m, hm, hq⟩ := h; exact ⟨m, by simp [hm], hq⟩)
      · rintro (h | ⟨m, hm, hq⟩)
        · exact Or.inl h
        · rcases List.mem_cons.mp hm with rfl | hm'
          · exact Or.inl (by subst hq; exact containsNat_iff.mp hc)
          · exact Or.inr ⟨m, hm', hq⟩
    · rw [if_neg hc]
      constructor
      · rintro (h | h)
        · rcases List.mem_append.mp h with h' | h'
          · exact Or.inl h'
          · exact Or.inr ⟨n, by simp, (List.mem_singleton.mp h').symm⟩
        · exact Or.inr (by obtain ⟨m, hm, hq⟩ := h; exact ⟨m, by simp [hm], hq⟩)
      · rintro (h | ⟨m, hm, hq⟩)
        · exact Or.inl (List.mem_append.mpr (Or.inl h))
        · rcases List.mem_cons.mp hm with rfl | hm'
          · exact Or.inl (List.mem_append.mpr (Or.inr (by simp [hq])))
          · exact Or.inr ⟨m, hm', hq⟩

theorem mem_groupKeys (notes : List NoteEvent) (q : ℕ) :
    q ∈ groupKeys notes ↔ ∃ n ∈ notes, n.pitchClass = q := by
  rw [groupKeys, groupKeys_fold_mem]
  simp

theorem groupKeys_fold_nodup (notes : List NoteEvent) :
    ∀ acc : List ℕ, acc.Nodup →
      (notes.foldl
        (fun acc n => if acc.contains n.pitchClass then acc else acc ++ [n.pitchClass])
        acc).Nodup := by
  induction notes with
  | nil => intro acc h; exact h
  | cons n ns ih =>
    intro acc h
    simp only [List.foldl_cons]
    by_cases hc : acc.contains n.pitchClass
    · rw [if_pos hc]; exact ih acc h
    · rw [if_neg hc]
      refine ih _ ?_
      refine List.Nodup.append h (List.nodup_singleton _) ?_
      intro a ha hb
      rw [List.mem_singleton] at hb
      subst hb
      exact hc (containsNat_iff.mpr ha)

theorem groupKeys_nodup (notes : List NoteEvent) : (groupKeys notes).Nodup :=
  groupKeys_fold_nodup notes [] List.nodup_nil

/-- Every note `smoothGroup` emits has pitch class `p`. -/
theorem smoothGroup_pitchClass (notes : List NoteEvent) (p : ℕ) :
    ∀ x ∈ smoothGroup notes p, x.pitchClass = p := by
  intro x hx
  simp only [smoothGroup] at hx
  split at hx
  · simpa using (List.mem_filter.mp hx).2
  · split at hx
    · obtain ⟨ec, hec, rfl⟩ := List.mem_map.mp hx
      have h1 : ec.1 ∈ sortByLE (fun a b => decide (a.onset ≤ b.onset))
          (notes.filter fun n => n.pitchClass == p) := (List.of_mem_zip hec).1
      rw [sortByLE_mem] at h1
      simpa using (List.mem_filter.mp h1).2
    · rw [sortByLE_mem] at hx
      simpa using (List.mem_filter.mp hx).2

/-- Every note `smoothGroup` emits keeps the timing and pitch of a note of the
input list. -/
theorem smoothGroup_timing (notes : List NoteEvent) (p : ℕ) :
    ∀ x ∈ smoothGroup notes p,
      ∃ m ∈ notes, x.onset = m.onset ∧ x.offset = m.offset ∧ x.pitch = m.pitch := by
  intro x hx
  simp only [smoothGroup] at hx
  split at hx
  · exact ⟨x, List.mem_of_mem_filter hx, rfl, rfl, rfl⟩
  · split at hx
    · obtain ⟨ec, hec, rfl⟩ := List.mem_map.mp hx
      have h1 : ec.1 ∈ sortByLE (fun a b => decide (a.onset ≤ b.onset))
          (notes.filter fun n => n.pitchClass == p) := (List.of_mem_zip hec).1
      rw [sortByLE_mem] at h1
      exact ⟨ec.1, List.mem_of_mem_filter h1, rfl, rfl, rfl⟩
    · rw [sortByLE_mem] at hx
      exact ⟨x, List.mem_of_mem_filter hx, rfl, rfl, rfl⟩

/-- Restricting the output of a disjoint family of groups to one pitch class yields
that group's output. -/
theorem filter_flatMap_groups (f : ℕ → List NoteEvent) (p : ℕ) :
    ∀ keys : List ℕ, keys.Nodup → (∀ q ∈ keys, ∀ x ∈ f q, x.pitchClass = q) →
      ((keys.flatMap f).filter fun n => n.pitchClass == p) =
        if p ∈ keys then f p else [] := by
  intro keys
  induction keys with
  | nil => intro _ _; simp
  | cons q ks ih =>
    intro hnd hpc
    simp only [List.flatMap_cons, List.filter_append]
    by_cases hpq : p = q
    · subst hpq
      rw [if_pos (by simp)]
      have h1 : (f p).filter (fun n => n.pitchClass == p) = f p :=
        List.filter_eq_self.mpr fun a ha =>
          decide_eq_true (by simp [hpc p (by simp) a ha])
      have h2 : ((ks.flatMap f).filter fun n => n.pitchClass == p) = [] := by
        rw [ih (List.Nodup.of_cons hnd) fun q' hq' => hpc q' (List.mem_cons_of_mem _ hq')]
        rw [if_neg (by intro hin; exact (List.nodup_cons.mp hnd).1 hin)]
      rw [h1, h2, List.append_nil]
    · have h1 : (f q).filter (fun n => n.pitchClass == p) = [] := by
        rw [List.filter_eq_nil_iff]
        intro a ha
        have := hpc q (by simp) a ha
        simp [this, Ne.symm hpq]
      rw [h1, List.nil_append,
        ih (List.Nodup.of_cons hnd) fun q' hq' => hpc q' (List.mem_cons_of_mem _ hq')]
      by_cases hin : p ∈ ks
      · rw [if_pos hin, if_pos (List.mem_cons_of_mem _ hin)]
      · rw [if_neg hin, if_neg (by simp [hpq, hin])]

/-- C6 (amended): the pitch smoother groups notes by pitch class, sorts each group
by onset and median-filters (window 3, zero-padded boundaries, as
`scipy.signal.medfilt` does) the group's confidence sequence, passing groups with at
most one element or fewer than 3 elements through; every output note keeps the
onset, offset and pitch of an input note.  The per-pitch-class restriction of the
output is exactly the processed group. -/
theorem smoothPitchActivity_spec (notes : List NoteEvent) (p : ℕ) :
    ((smoothPitchActivity notes).filter fun n => n.pitchClass == p) = smoothGroup notes p ∧
      ∀ x ∈ smoothPitchActivity notes,
        ∃ m ∈ notes, x.onset = m.onset ∧ x.offset = m.offset ∧ x.pitch = m.pitch := by
  constructor
  · match notes with
    | [] =>
      show ([] : List NoteEvent).filter _ = smoothGroup [] p
      simp [smoothGroup]
    | n0 :: ns =>
      show (((groupKeys (n0 :: ns)).flatMap (smoothGroup (n0 :: ns))).filter _) = _
      rw [filter_flatMap_groups (smoothGroup (n0 :: ns)) p (groupKeys (n0 :: ns))
        (groupKeys_nodup _) (fun q _ => smoothGroup_pitchClass _ q)]
      by_cases hin : p ∈ groupKeys (n0 :: ns)
      · rw [if_pos hin]
      · rw [if_neg hin]
        have hempty : ((n0 :: ns).filter fun n => n.pitchClass == p) = [] := by
          rw [List.filter_eq_nil_iff]
          intro a ha hq
          exact hin ((mem_groupKeys _ p).mpr ⟨a, ha, of_decide_eq_true hq⟩)
        simp [smoothGroup, hempty]
  · intro x hx
    match notes, hx with
    | n0 :: ns, hx =>
      obtain ⟨q, _, hxq⟩ := List.mem_flatMap.mp hx
      exact smoothGroup_timing _ q x hxq

/-! ## C7: window smoother metadata reuse (resegmentation) -/

/-- The metadata property of every chord the resegmentation loop emits: its symbol
is not `"N"` and its confidence, pitch classes, root and type are copied from the
first original chord carrying its symbol. -/
def CopiedMeta (cs : List ChordEvent) (x : ChordEvent) : Prop :=
  x.chordSymbol ≠ "N" ∧
    ∃ o, cs.find? (fun c => c.chordSymbol == x.chordSymbol) = some o ∧
      x.confidence = o.confidence ∧ x.pitchClasses = o.pitchClasses ∧
      x.rootPc = o.rootPc ∧ x.chordType = o.chordType

theorem emitRun_meta (cs : List ChordEvent) (sym : String) (a b : ℚ) :
    ∀ x ∈ emitRun cs sym a b, CopiedMeta cs x := by
  intro x hx
  unfold emitRun at hx
  split at hx
  · simp at hx
  · rename_i hN
    split at hx
    · rename_i o ho
      rw [List.mem_singleton] at hx
      subst hx
      exact ⟨hN, o, ho, rfl, rfl, rfl, rfl⟩
    · simp at hx

theorem resegFold_mem (cs : List ChordEvent) (syms : List String) (pts : List ℚ)
    (stopT : ℚ) :
    ∀ (idxs : List ℕ) (cur : String) (st : ℚ) (acc : List ChordEvent),
      (∀ x ∈ acc, CopiedMeta cs x) →
      ∀ x ∈ resegFold cs syms pts stopT idxs cur st acc, CopiedMeta cs x := by
  intro idxs
  induction idxs with
  | nil =>
    intro cur st acc hacc x hx
    simp only [resegFold] at hx
    rcases List.mem_append.mp hx with h | h
    · exact hacc x h
    · exact emitRun_meta cs cur st stopT x h
  | cons i is ih =>
    intro cur st acc hacc x hx
    simp only [resegFold] at hx
    split at hx
    · refine ih _ _ _ ?_ x hx
      intro y hy
      rcases List.mem_append.mp hy with h | h
      · exact hacc y h
      · exact emitRun_meta cs cur st _ y h
    · exact ih _ _ _ hacc x hx

/-- Helper: every chord emitted by the window smoother either is an input chord or
carries copied metadata. -/
theorem smoothChord_mem_meta (cs : List ChordEvent) :
    ∀ c ∈ smoothChordProgression cs, c ∈ cs ∨ CopiedMeta cs c := by
  intro c hc
  simp only [smoothChordProgression] at hc
  split at hc
  · exact Or.inl hc
  · split at hc
    · exact Or.inl hc
    · split at hc
      · split at hc
        · simp at hc
        · exact Or.inr (resegFold_mem cs _ _ _ _ _ _ [] (by simp) c hc)
      · exact Or.inl hc

/-- C7 (amended): every chord emitted by the window smoother either is an input
chord (the pass-through cases) or carries a non-`"N"` symbol with confidence,
pitch classes, root and type copied from the first input chord bearing that
symbol. -/
theorem smoothChordProgression_meta (cs : List ChordEvent) :
    ∀ c ∈ smoothChordProgression cs, c ∈ cs ∨ CopiedMeta cs c :=
  smoothChord_mem_meta cs

/-- Length of the closed-form timeline: one point per `k ≤ ⌊span/res⌋`. -/
theorem timelinePoints_length (startT stopT res : ℚ) (h : startT ≤ stopT) :
    (timelinePoints startT stopT res).length = ((stopT - startT) / res).floor.toNat + 1 := by
  unfold timelinePoints
  rw [if_neg (not_lt.mpr h), List.length_map, List.length_range]

/-! ## The strict-improvement scan: characterization -/

theorem foldl_flatMap (f : γ → β → γ) (g : α → List β) (l : List α) (init : γ) :
    (l.flatMap g).foldl f init = l.foldl (fun acc a => (g a).foldl f acc) init := by
  induction l generalizing init with
  | nil => rfl
  | cons a l ih =>
    simp only [List.flatMap_cons, List.foldl_append, List.foldl_cons]
    exact ih _

/-- The strict-improvement scan either never improves on its initial state, or ends
at the first candidate attaining the (maximal) final value. -/
theorem scanG_spec (f : α → ℚ) (g : α → β) (l : List α) :
    ∀ init : β × ℚ,
      (∀ c ∈ l, f c ≤ (scanG f g l init).2) ∧
      init.2 ≤ (scanG f g l init).2 ∧
      (scanG f g l init = init ∨
        ∃ pre x post, l = pre ++ x :: post ∧
          (scanG f g l init).1 = g x ∧ (scanG f g l init).2 = f x ∧
          init.2 < f x ∧ ∀ c ∈ pre, f c < f x) := by
  induction l with
  | nil => intro init; exact ⟨by simp, le_refl _, Or.inl rfl⟩
  | cons c l ih =>
    intro init
    have hstep : scanG f g (c :: l) init =
        scanG f g l (if f c > init.2 then (g c, f c) else init) := by
      simp only [scanG, List.foldl_cons]
    by_cases hc : f c > init.2
    · rw [if_pos hc] at hstep
      obtain ⟨hle, hge, hcase⟩ := ih (g c, f c)
      rw [hstep]
      refine ⟨?_, le_trans (le_of_lt hc) hge, ?_⟩
      · intro d hd
        rcases List.mem_cons.mp hd with rfl | hd'
        · exact hge
        · exact hle d hd'
      · rcases hcase with heq | ⟨pre, x, post, hl, h1, h2, hlt, hpre⟩
        · right
          refine ⟨[], c, l, rfl, ?_, ?_, hc, by simp⟩
          · rw [heq]
          · rw [heq]
        · right
          refine ⟨c :: pre, x, post, by rw [hl, List.cons_append], h1, h2, lt_trans hc hlt, ?_⟩
          intro d hd
          rcases List.mem_cons.mp hd with rfl | hd'
          · exact hlt
          · exact hpre d hd'
    · rw [if_neg hc] at hstep
      obtain ⟨hle, hge, hcase⟩ := ih init
      rw [hstep]
      refine ⟨?_, hge, ?_⟩
      · intro d hd
        rcases List.mem_cons.mp hd with rfl | hd'
        · exact le_trans (not_lt.mp hc) hge
        · exact hle d hd'
      · rcases hcase with heq | ⟨pre, x, post, hl, h1, h2, hlt, hpre⟩
        · exact Or.inl heq
        · right
          refine ⟨c :: pre, x, post, by rw [hl, List.cons_append], h1, h2, hlt, ?_⟩
          intro d hd
          rcases List.mem_cons.mp hd with rfl | hd'
          · exact lt_of_le_of_lt (not_lt.mp hc) hlt
          · exact hpre d hd'

/-! ## C4: the key detector's candidate scan -/

theorem keyCands_mem : ∀ r < 12, (r, Mode.major) ∈ keyCands ∧ (r, Mode.minor) ∈ keyCands := by
  decide

theorem keyCands_fst_lt : ∀ c ∈ keyCands, c.1 < 12 := by decide

theorem keyCands_mem' (r : ℕ) (hr : r < 12) (m : Mode) : (r, m) ∈ keyCands := by
  cases m
  · exact (keyCands_mem r hr).1
  · exact (keyCands_mem r hr).2

theorem keyCands_getD_idx : ∀ i < 24,
    2 * (keyCands.getD i (0, Mode.major)).1 + modeIdx (keyCands.getD i (0, Mode.major)).2 = i := by
  decide

theorem keyCands_sorted_idx :
    keyCands.Pairwise fun a b => 2 * a.1 + modeIdx a.2 < 2 * b.1 + modeIdx b.2 := by
  rw [List.pairwise_iff_getElem]
  intro i j hi hj hij
  have hlen : keyCands.length = 24 := rfl
  have h1 := keyCands_getD_idx i (by omega)
  have h2 := keyCands_getD_idx j (by omega)
  rw [List.getD_eq_getElem _ _ hi] at h1
  rw [List.getD_eq_getElem _ _ hj] at h2
  omega

/-- On a candidate-list decomposition `pre ++ x :: post`, `x` comes no later than any
member of `x :: post` in the loop order. -/
theorem keyCands_decomp_idx (pre post : List (ℕ × Mode)) (x d : ℕ × Mode)
    (h : keyCands = pre ++ x :: post) (hd : d ∈ x :: post) :
    2 * x.1 + modeIdx x.2 ≤ 2 * d.1 + modeIdx d.2 := by
  have hpw := keyCands_sorted_idx
  rw [h, List.pairwise_append] at hpw
  have hxpost := hpw.2.1
  rcases List.mem_cons.mp hd with rfl | hd'
  · exact le_refl _
  · exact le_of_lt ((List.pairwise_cons.mp hxpost).1 d hd')

/-- The full characterization of the key scan, given that the correlation of the
first candidate is at least the initial best `-1` (Pearson correlations are always
in `[-1, 1]`): the selected candidate attains the final correlation, every candidate
correlates at most that much, and among candidates attaining it the selected one
comes first in the loop order (lower root first, major before minor at one root). -/
theorem keyScan_spec (corr : ℕ → Mode → ℚ) (h0 : -1 ≤ corr 0 .major) :
    (keyScan corr).1 < 12 ∧
    corr (keyScan corr).1 (keyScan corr).2.1 = (keyScan corr).2.2 ∧
    (∀ r < 12, ∀ m, corr r m ≤ (keyScan corr).2.2) ∧
    (∀ r < 12, ∀ m, corr r m = (keyScan corr).2.2 →
      2 * (keyScan corr).1 + modeIdx (keyScan corr).2.1 ≤ 2 * r + modeIdx m) := by
  obtain ⟨hle, hge, hcase⟩ :=
    scanG_spec (fun c : ℕ × Mode => corr c.1 c.2) (fun c => c) keyCands ((0, Mode.major), -1)
  have hk1 : (keyScan corr).1 =
      (scanG (fun c : ℕ × Mode => corr c.1 c.2) (fun c => c) keyCands ((0, Mode.major), -1)).1.1 := by
    simp only [keyScan]
  have hk21 : (keyScan corr).2.1 =
      (scanG (fun c : ℕ × Mode => corr c.1 c.2) (fun c => c) keyCands ((0, Mode.major), -1)).1.2 := by
    simp only [keyScan]
  have hk22 : (keyScan corr).2.2 =
      (scanG (fun c : ℕ × Mode => corr c.1 c.2) (fun c => c) keyCands ((0, Mode.major), -1)).2 := by
    simp only [keyScan]
  rcases hcase with heq | ⟨pre, x, post, hl, h1, h2, hlt, hpre⟩
  · have hv : (keyScan corr).2.2 = -1 := by rw [hk22, heq]
    have hpc : (keyScan corr).1 = 0 := by rw [hk1, heq]
    have hmd : (keyScan corr).2.1 = Mode.major := by rw [hk21, heq]
    refine ⟨by rw [hpc]; norm_num, ?_, ?_, ?_⟩
    · rw [hpc, hmd, hv]
      have := hle (0, Mode.major) (keyCands_mem 0 (by norm_num)).1
      rw [← hk22, hv] at this
      exact le_antisymm this h0
    · intro r hr m
      rw [hk22]
      exact hle (r, m) (keyCands_mem' r hr m)
    · intro r hr m _
      rw [hpc, hmd]
      simp [modeIdx]
  · have hx1 : (keyScan corr).1 = x.1 := by rw [hk1, h1]
    have hx2 : (keyScan corr).2.1 = x.2 := by rw [hk21, h1]
    have hxv : (keyScan corr).2.2 = corr x.1 x.2 := by rw [hk22, h2]
    have hxmem : x ∈ keyCands := by rw [hl]; exact List.mem_append_right _ (List.mem_cons_self _ _)
    refine ⟨by rw [hx1]; exact keyCands_fst_lt x hxmem, by rw [hx1, hx2, hxv], ?_, ?_⟩
    · intro r hr m
      rw [hk22]
      exact hle (r, m) (keyCands_mem' r hr m)
    · intro r hr m hm
      have hmem : (r, m) ∈ keyCands := keyCands_mem' r hr m
      rw [hl] at hmem
      rcases List.mem_append.mp hmem with hin | hin
      · exact absurd (by rw [hxv] at hm; exact hm ▸ hpre (r, m) hin) (lt_irrefl _)
      · have := keyCands_decomp_idx pre post x (r, m) hl hin
        rw [hx1, hx2]
        exact this

/-- C4: on the non-degenerate path (nonempty notes, nonzero histogram weight) the
key detector runs the 24-candidate strict-improvement scan over the normalized
histogram, the selected candidate attains the maximal correlation, ties favor the
earlier candidate in the loop order (lower root, then major before minor), and the
returned confidence is the best correlation clamped to `[0, 1]`. -/
theorem estimateKey_selection (corr : Corr) (notes : List NoteEvent)
    (hne : notes ≠ [])
    (hsum : (pcHist (shortFiltered notes)).sum ≠ 0)
    (h0 : -1 ≤ corr ((pcHist (shortFiltered notes)).map
        (· / (pcHist (shortFiltered notes)).sum)) 0 .major) :
    (estimateKey corr notes true =
      ⟨(keyScan fun root m => corr ((pcHist (shortFiltered notes)).map
            (· / (pcHist (shortFiltered notes)).sum)) root m).1,
        (keyScan fun root m => corr ((pcHist (shortFiltered notes)).map
            (· / (pcHist (shortFiltered notes)).sum)) root m).2.1,
        max 0 (min 1 ((keyScan fun root m => corr ((pcHist (shortFiltered notes)).map
            (· / (pcHist (shortFiltered notes)).sum)) root m).2.2))⟩) ∧
    ((keyScan fun root m => corr ((pcHist (shortFiltered notes)).map
        (· / (pcHist (shortFiltered notes)).sum)) root m).1 < 12 ∧
      corr ((pcHist (shortFiltered notes)).map (· / (pcHist (shortFiltered notes)).sum))
          (keyScan fun root m => corr ((pcHist (shortFiltered notes)).map
            (· / (pcHist (shortFiltered notes)).sum)) root m).1
          (keyScan fun root m => corr ((pcHist (shortFiltered notes)).map
            (· / (pcHist (shortFiltered notes)).sum)) root m).2.1 =
        (keyScan fun root m => corr ((pcHist (shortFiltered notes)).map
            (· / (pcHist (shortFiltered notes)).sum)) root m).2.2 ∧
      (∀ r < 12, ∀ m, corr ((pcHist (shortFiltered notes)).map
          (· / (pcHist (shortFiltered notes)).sum)) r m ≤
        (keyScan fun root m => corr ((pcHist (shortFiltered notes)).map
            (· / (pcHist (shortFiltered notes)).sum)) root m).2.2) ∧
      (∀ r < 12, ∀ m, corr ((pcHist (shortFiltered notes)).map
            (· / (pcHist (shortFiltered notes)).sum)) r m =
          (keyScan fun root m => corr ((pcHist (shortFiltered notes)).map
              (· / (pcHist (shortFiltered notes)).sum)) root m).2.2 →
        2 * (keyScan fun root m => corr ((pcHist (shortFiltered notes)).map
            (· / (pcHist (shortFiltered notes)).sum)) root m).1 +
            modeIdx (keyScan fun root m => corr ((pcHist (shortFiltered notes)).map
              (· / (pcHist (shortFiltered notes)).sum)) root m).2.1 ≤
          2 * r + modeIdx m)) := by
  constructor
  · rcases notes with _ | ⟨n, ns⟩
    · exact absurd rfl hne
    · have hunfold : estimateKey corr (n :: ns) true =
          estimateKeyCore corr (shortFiltered (n :: ns)) := rfl
      rw [hunfold]
      simp only [estimateKeyCore]
      rw [if_neg hsum]
  · exact keyScan_spec _ h0

/-! ## C5: the chord identifier's candidate scan -/

theorem le_listMaxQ (l : List ℚ) (x : ℚ) (hx : x ∈ l) : x ≤ listMaxQ l := by
  match l with
  | [] => simp at hx
  | y :: ys =>
    show x ≤ ys.foldl max y
    have haux : ∀ (ys : List ℚ) (a : ℚ),
        a ≤ ys.foldl max a ∧ ∀ x ∈ ys, x ≤ ys.foldl max a := by
      intro ys
      induction ys with
      | nil => intro a; exact ⟨le_refl _, by simp⟩
      | cons z zs ih =>
        intro a
        refine ⟨le_trans (le_max_left a z) (ih (max a z)).1, ?_⟩
        intro w hw
        rcases List.mem_cons.mp hw with rfl | hw'
        · exact le_trans (le_max_right a w) (ih (max a w)).1
        · exact (ih (max a z)).2 w hw'
    rcases List.mem_cons.mp hx with rfl | hx'
    · exact (haux ys x).1
    · exact (haux ys y).2 x hx'

theorem alGet_zero_or_mem (l : List (ℕ × ℚ)) (r : ℕ) :
    alGet l r = 0 ∨ alGet l r ∈ l.map (·.2) := by
  unfold alGet
  split
  · rename_i p hf
    exact Or.inr (List.mem_map_of_mem _ (List.mem_of_find?_eq_some hf))
  · exact Or.inl rfl

theorem rootStrengthBonus_pos (pcw : List (ℕ × ℚ)) (pcs : List ℕ) (root : ℕ) :
    0 < rootStrengthBonus pcw pcs root := by
  unfold rootStrengthBonus
  split
  · norm_num
  · rename_i hne
    have hb : (0 : ℚ) <
        (if 0 < alGet pcw root then 1 + alGet pcw root / listMaxQ (pcw.map (·.2)) * (8/10)
         else 1) := by
      split
      · rename_i hw
        have hmax : alGet pcw root ≤ listMaxQ (pcw.map (·.2)) := by
          rcases alGet_zero_or_mem pcw root with h0 | hmem
          · rw [h0] at hw; exact absurd hw (lt_irrefl 0)
          · exact le_listMaxQ _ _ hmem
        have hmaxpos : 0 < listMaxQ (pcw.map (·.2)) := lt_of_lt_of_le hw hmax
        have : 0 < alGet pcw root / listMaxQ (pcw.map (·.2)) := div_pos hw hmaxpos
        nlinarith
      · norm_num
    split
    · nlinarith
    · exact hb

theorem chordTests_entries : ∀ s ∈ chordTests, 0 < s.base ∧ 0 < s.required.card := by
  decide

theorem shapeScore_pos (s : ChordShape) (hs : s ∈ chordTests) (iset : Finset ℕ)
    (hiset : 0 < iset.card) (rsb : ℚ) (hrsb : 0 < rsb) (root : ℕ) (k : KeyEstimate) :
    0 < shapeScore s iset rsb root k := by
  obtain ⟨hbase, hreq⟩ := chordTests_entries s hs
  have hr : (0 : ℚ) < (s.required.card : ℚ) / (iset.card : ℚ) :=
    div_pos (by exact_mod_cast hreq) (by exact_mod_cast hiset)
  unfold shapeScore
  split
  · split
    · split
      · positivity
      · positivity
    · split
      · positivity
      · positivity
  · split
    · split
      · positivity
      · positivity
    · split
      · positivity
      · positivity

theorem mem_identCands (pcs : List ℕ) (c : ℕ × ChordShape) (hc : c ∈ identCands pcs) :
    c.1 ∈ pcs ∧ c.2 ∈ chordTests := by
  unfold identCands at hc
  obtain ⟨r, hr, hmem⟩ := List.mem_flatMap.mp hc
  obtain ⟨s, hsm, rfl⟩ := List.mem_map.mp hmem
  exact ⟨hr, hsm⟩

theorem zero_mem_intervalsFrom (pcs : List ℕ) (root : ℕ) (h : root ∈ pcs) :
    0 ∈ intervalsFrom root pcs := by
  unfold intervalsFrom
  refine List.mem_map.mpr ⟨root, h, ?_⟩
  simp

/-- A matching candidate always scores strictly positively. -/
theorem identScore_pos (pcs : List ℕ) (k : KeyEstimate) (pcw : List (ℕ × ℚ))
    (c : ℕ × ChordShape) (hc : c ∈ identCands pcs)
    (hm : c.2.required ⊆ (intervalsFrom c.1 pcs).toFinset) :
    0 < identScore pcs k pcw c := by
  obtain ⟨h1, h2⟩ := mem_identCands pcs c hc
  unfold identScore
  rw [if_pos hm]
  refine shapeScore_pos c.2 h2 _ ?_ _ (rootStrengthBonus_pos pcw pcs c.1) c.1 k
  rw [Finset.card_pos]
  exact ⟨0, List.mem_toFinset.mpr (zero_mem_intervalsFrom pcs c.1 h1)⟩

theorem identScore_zero (pcs : List ℕ) (k : KeyEstimate) (pcw : List (ℕ × ℚ))
    (c : ℕ × ChordShape) (hm : ¬ c.2.required ⊆ (intervalsFrom c.1 pcs).toFinset) :
    identScore pcs k pcw c = 0 := by
  unfold identScore
  rw [if_neg hm]

/-- One inner step of the identifier loop is one step of the strict-improvement
scan, provided the running best score is nonnegative (it always is: it starts at 0
and only increases). -/
theorem identifyShapeStep_eq (pcs : List ℕ) (k : KeyEstimate) (pcw : List (ℕ × ℚ))
    (root : ℕ) (best : Option (String × String) × ℚ) (s : ChordShape) (h : 0 ≤ best.2) :
    identifyShapeStep pcs k pcw root best s =
      (if identScore pcs k pcw (root, s) > best.2 then
        (identSym (root, s), identScore pcs k pcw (root, s))
      else best) ∧
    0 ≤ (identifyShapeStep pcs k pcw root best s).2 := by
  simp only [identifyShapeStep, identScore, identSym]
  by_cases hm : s.required ⊆ (intervalsFrom root pcs).toFinset
  · simp only [if_pos hm]
    by_cases hgt :
        shapeScore s (intervalsFrom root pcs).toFinset (rootStrengthBonus pcw pcs root) root k >
          best.2
    · simp only [if_pos hgt]
      exact ⟨by trivial, le_of_lt (lt_of_le_of_lt h hgt)⟩
    · simp only [if_neg hgt]
      exact ⟨by trivial, h⟩
  · simp only [if_neg hm]
    rw [if_neg (show ¬ ((0 : ℚ) > best.2) from not_lt.mpr h)]
    exact ⟨rfl, h⟩

theorem identifyRootFold_eq (pcs : List ℕ) (k : KeyEstimate) (pcw : List (ℕ × ℚ))
    (root : ℕ) :
    ∀ (shapes : List ChordShape) (best : Option (String × String) × ℚ), 0 ≤ best.2 →
      shapes.foldl (identifyShapeStep pcs k pcw root) best =
        scanG (identScore pcs k pcw) identSym (shapes.map fun s => (root, s)) best ∧
      0 ≤ (shapes.foldl (identifyShapeStep pcs k pcw root) best).2 := by
  intro shapes
  induction shapes with
  | nil => intro best h; exact ⟨rfl, h⟩
  | cons s shapes ih =>
    intro best h
    obtain ⟨hstep, hpos⟩ := identifyShapeStep_eq pcs k pcw root best s h
    have hpos' : 0 ≤ (identifyShapeStep pcs k pcw root best s).2 := hpos
    obtain ⟨ih1, ih2⟩ := ih (identifyShapeStep pcs k pcw root best s) hpos'
    constructor
    · simp only [List.foldl_cons, List.map_cons]
      rw [ih1]
      unfold scanG
      simp only [List.foldl_cons]
      rw [← hstep]
    · simp only [List.foldl_cons]
      exact ih2

theorem identifyFold_eq (pcs : List ℕ) (k : KeyEstimate) (pcw : List (ℕ × ℚ)) :
    ∀ (l : List ℕ) (best : Option (String × String) × ℚ), 0 ≤ best.2 →
      l.foldl (identifyRootFold pcs k pcw) best =
        scanG (identScore pcs k pcw) identSym
          (l.flatMap fun root => chordTests.map fun s => (root, s)) best ∧
      0 ≤ (l.foldl (identifyRootFold pcs k pcw) best).2 := by
  intro l
  induction l with
  | nil => intro best h; exact ⟨rfl, h⟩
  | cons root l ih =>
    intro best h
    obtain ⟨h1, h2⟩ := identifyRootFold_eq pcs k pcw root chordTests best h
    have hrf : identifyRootFold pcs k pcw best root =
        scanG (identScore pcs k pcw) identSym (chordTests.map fun s => (root, s)) best := h1
    have hrfpos : 0 ≤ (identifyRootFold pcs k pcw best root).2 := h2
    obtain ⟨ih1, ih2⟩ := ih (identifyRootFold pcs k pcw best root) hrfpos
    constructor
    · simp only [List.foldl_cons, List.flatMap_cons]
      rw [ih1, hrf]
      unfold scanG
      rw [List.foldl_append]
    · simp only [List.foldl_cons]
      exact ih2

theorem identifyChord_eq_scan (pcs : List ℕ) (k : KeyEstimate) (pcw : List (ℕ × ℚ))
    (h : pcs ≠ []) :
    identifyChord pcs k pcw =
      (match (scanG (identScore pcs k pcw) identSym (identCands pcs)
          ((none : Option (String × String)), (0 : ℚ))).1 with
      | some st => st
      | none => (noteNames.getD (listMinNat pcs) "" ++ "?", "unknown")) := by
  rcases pcs with _ | ⟨p, ps⟩
  · exact absurd rfl h
  · show (match ((p :: ps).foldl (identifyRootFold (p :: ps) k pcw)
        ((none : Option (String × String)), (0 : ℚ))).1 with
      | some st => st
      | none => (noteNames.getD (listMinNat (p :: ps)) "" ++ "?", "unknown")) = _
    rw [(identifyFold_eq (p :: ps) k pcw (p :: ps)
      ((none : Option (String × String)), (0 : ℚ)) (le_refl 0)).1]
    rfl

/-- C5 (amended): the chord identifier tracks the single best-scoring
`(root, shape)` pair using strict score improvement; among tied scores it keeps the
first found in the iteration order — the order of the supplied `pitch_classes` list
(which the windowed detector sorts by descending weight), then table order — and
when no shape's required interval set is a subset of any candidate's interval set it
returns the lowest pitch class as root with symbol `"<root>?"` and type unknown. -/
theorem identifyChord_spec (pcs : List ℕ) (k : KeyEstimate) (pcw : List (ℕ × ℚ))
    (h : pcs ≠ []) :
    ((∀ c ∈ identCands pcs, ¬ c.2.required ⊆ (intervalsFrom c.1 pcs).toFinset) →
      identifyChord pcs k pcw = (noteNames.getD (listMinNat pcs) "" ++ "?", "unknown")) ∧
    (∀ c0 ∈ identCands pcs, c0.2.required ⊆ (intervalsFrom c0.1 pcs).toFinset →
      ∃ pre x post, identCands pcs = pre ++ x :: post ∧
        x.2.required ⊆ (intervalsFrom x.1 pcs).toFinset ∧
        identifyChord pcs k pcw = (noteNames.getD x.1 "" ++ x.2.suffix, x.2.ctype) ∧
        (∀ c ∈ identCands pcs, identScore pcs k pcw c ≤ identScore pcs k pcw x) ∧
        (∀ c ∈ pre, identScore pcs k pcw c < identScore pcs k pcw x)) := by
  obtain ⟨hle, hge, hcase⟩ := scanG_spec (identScore pcs k pcw) identSym (identCands pcs)
    ((none : Option (String × String)), (0 : ℚ))
  constructor
  · intro hnone
    rcases hcase with heq | ⟨pre, x, post, hl, h1, h2, hlt, hpre⟩
    · rw [identifyChord_eq_scan pcs k pcw h, heq]
    · have hx : x ∈ identCands pcs := by
        rw [hl]; exact List.mem_append_right _ (List.mem_cons_self _ _)
      have := identScore_zero pcs k pcw x (hnone x hx)
      rw [this] at hlt
      exact absurd hlt (lt_irrefl 0)
  · intro c0 hc0 hm0
    have hpos := identScore_pos pcs k pcw c0 hc0 hm0
    rcases hcase with heq | ⟨pre, x, post, hl, h1, h2, hlt, hpre⟩
    · have := hle c0 hc0
      rw [heq] at this
      exact absurd (lt_of_lt_of_le hpos this) (lt_irrefl 0)
    · have hx : x ∈ identCands pcs := by
        rw [hl]; exact List.mem_append_right _ (List.mem_cons_self _ _)
      have hxpos : 0 < identScore pcs k pcw x := by
        rw [← h2]
        exact lt_of_lt_of_le hpos (hle c0 hc0)
      have hxm : x.2.required ⊆ (intervalsFrom x.1 pcs).toFinset := by
        by_contra hno
        rw [identScore_zero pcs k pcw x hno] at hxpos
        exact absurd hxpos (lt_irrefl 0)
      refine ⟨pre, x, post, hl, hxm, ?_, ?_, ?_⟩
      · rw [identifyChord_eq_scan pcs k pcw h, h1]
        rfl
      · intro c hc
        rw [← h2]
        exact hle c hc
      · intro c hc
        rw [← h2] at hpre
        rw [← h2]
        exact hpre c hc

/-! ## C9: merge + stability idempotence -/

/-- The merge fold flushes everything unchanged when no adjacent pair merges. -/
theorem mergeFold_no_merges (rest : List ChordEvent) :
    ∀ (cur : ChordEvent) (acc : List ChordEvent),
      List.Chain' (fun a b => shouldMerge a b = false) (cur :: rest) →
      (rest.foldl mergeStep (cur, acc)).2 ++ [(rest.foldl mergeStep (cur, acc)).1] =
        acc ++ cur :: rest := by
  induction rest with
  | nil => intro cur acc _; simp
  | cons next rest ih =>
    intro cur acc hchain
    have hnm : shouldMerge cur next = false := hchain.rel_head
    have htail : List.Chain' (fun a b => shouldMerge a b = false) (next :: rest) :=
      hchain.tail
    simp only [List.foldl_cons, mergeStep, hnm, Bool.false_eq_true, if_false]
    rw [ih next (acc ++ [cur]) htail]
    simp

theorem mergeSimilarChords_no_merges (chords : List ChordEvent)
    (h : List.Chain' (fun a b => shouldMerge a b = false) chords) :
    mergeSimilarChords chords = chords := by
  match chords with
  | [] => rfl
  | [c] => rfl
  | c :: c' :: rest =>
    show (_ : ChordEvent × List ChordEvent).2 ++ [(_ : ChordEvent × List ChordEvent).1] = _
    exact mergeFold_no_merges (c' :: rest) c [] h

/-- C9: on a chord list where no adjacent pair satisfies the merge criteria and every
chord lasts at least the minimum chord duration, running the merger followed by the
stability filter returns the list unchanged. -/
theorem merge_stability_idempotent (chords : List ChordEvent)
    (hm : List.Chain' (fun a b => shouldMerge a b = false) chords)
    (hs : ∀ c ∈ chords, minChordDuration ≤ c.offset - c.onset) :
    ensureStability (mergeSimilarChords chords) = chords := by
  rw [mergeSimilarChords_no_merges chords hm]
  unfold ensureStability
  rw [List.filter_eq_self]
  intro c hc
  exact decide_eq_true (hs c hc)

section EvalC9C10

attribute [local semireducible] Rat.add Rat.mul Rat.sub Rat.inv Rat.ofScientific

/-- Witness for C9 at a concrete already-merged, already-stable two-chord list. -/
theorem merge_stability_idempotent_witness :
    ensureStability (mergeSimilarChords
        [⟨0, 1, "C", 1/2, {0, 4, 7}, 0, "major"⟩, ⟨2, 3, "D", 1/2, {2, 6, 9}, 2, "major"⟩]) =
      [⟨0, 1, "C", 1/2, {0, 4, 7}, 0, "major"⟩, ⟨2, 3, "D", 1/2, {2, 6, 9}, 2, "major"⟩] :=
  merge_stability_idempotent _
    (by rw [List.chain'_cons]; exact ⟨by rfl, List.chain'_singleton _⟩)
    (by decide)

/-! ## C10: window smoother pass-through on short spans -/

/-- C10: with more than 2 chords but a positive span shorter than 1 second, the
0.5-second grid has fewer than 3 points, so the smoother returns its input
unchanged. -/
theorem smoothChordProgression_short_span (chords : List ChordEvent)
    (h2 : 2 < chords.length)
    (hpos : 0 < listMaxQ (chords.map (·.offset)) - listMinQ (chords.map (·.onset)))
    (hlt : listMaxQ (chords.map (·.offset)) - listMinQ (chords.map (·.onset)) < 1) :
    smoothChordProgression chords = chords := by
  have hle : listMinQ (chords.map (·.onset)) ≤ listMaxQ (chords.map (·.offset)) := by linarith
  have hlen : (timelinePoints (listMinQ (chords.map (·.onset)))
      (listMaxQ (chords.map (·.offset))) timelineResolution).length ≤ 2 := by
    rw [timelinePoints_length _ _ _ hle]
    have hq : (listMaxQ (chords.map (·.offset)) - listMinQ (chords.map (·.onset))) /
        timelineResolution < 2 := by
      rw [timelineResolution, div_lt_iff₀ (by norm_num)]
      linarith
    have hfl : ((listMaxQ (chords.map (·.offset)) - listMinQ (chords.map (·.onset))) /
        timelineResolution).floor < 2 :=
      Int.floor_lt.mpr (by exact_mod_cast hq)
    omega
  have hfw : max 3 (((1 : ℚ) / timelineResolution).floor.toNat) = 3 := by
    have h1 : (1 : ℚ) / timelineResolution = 2 := by rw [timelineResolution]; norm_num
    rw [h1]
    have h2' : ((2 : ℚ)).floor = 2 := by
      exact_mod_cast Int.floor_intCast (α := ℚ) 2
    rw [h2']
    rfl
  simp only [smoothChordProgression]
  rw [if_neg (not_le.mpr h2), if_neg (by linarith), hfw, if_neg (by
    rw [List.length_map]
    omega)]

/-- Witness for C10: three 0.3-second chords inside `[0, 0.9]` pass through the
window smoother unchanged. -/
theorem smoothChordProgression_short_span_witness :
    smoothChordProgression
        [⟨0, 3/10, "C", 1/2, {0, 4, 7}, 0, "major"⟩,
         ⟨3/10, 6/10, "D", 1/2, {2, 6, 9}, 2, "major"⟩,
         ⟨6/10, 9/10, "E", 1/2, {4, 8, 11}, 4, "major"⟩] =
      [⟨0, 3/10, "C", 1/2, {0, 4, 7}, 0, "major"⟩,
       ⟨3/10, 6/10, "D", 1/2, {2, 6, 9}, 2, "major"⟩,
       ⟨6/10, 9/10, "E", 1/2, {4, 8, 11}, 4, "major"⟩] :=
  smoothChordProgression_short_span _ (by decide) (by decide) (by decide)

end EvalC9C10

/-! ## C8: empty / fully-invalid input and per-record skipping -/

/-- C8: an input whose records all fail conversion (in particular the empty input)
yields `chords = []` and `key = {"C", "major", 0.0}`; and a malformed record is
simply skipped — it never affects the processing of the remaining records. -/
theorem processNoteEvents_invalid (corr : Corr) (raws : List RawNote) :
    ((∀ r ∈ raws, parseNote r = none) →
      processNoteEvents corr raws = ([], ⟨"C", "major", 0⟩)) ∧
    (∀ bad, parseNote bad = none →
      processNoteEvents corr (bad :: raws) = processNoteEvents corr raws) := by
  constructor
  · intro h
    have hfm : raws.filterMap parseNote = [] := by
      rw [List.filterMap_eq_nil_iff]
      exact h
    unfold processNoteEvents
    rw [hfm]
  · intro bad hbad
    unfold processNoteEvents
    rw [List.filterMap_cons_none hbad]

/-! ## C2: final output is onset-sorted, but can overlap -/

theorem timelinePoints_getD (startT stopT res : ℚ) (i : ℕ)
    (hi : i < (timelinePoints startT stopT res).length) :
    (timelinePoints startT stopT res).getD i 0 = startT + res * (i : ℚ) := by
  unfold timelinePoints at *
  by_cases h : stopT < startT
  · rw [if_pos h] at hi
    simp at hi
  · rw [if_neg h] at hi ⊢
    rw [List.length_map, List.length_range] at hi
    rw [List.getD_eq_getElem _ _ (by simpa using hi)]
    simp

/-- Window start times are strictly increasing. -/
theorem windowStarts_pairwise (s e step : ℚ) (hstep : 0 < step) :
    (windowStarts s e step).Pairwise (· < ·) := by
  unfold windowStarts
  rw [List.pairwise_map]
  refine (List.pairwise_lt_range _).imp ?_
  intro a b hab
  have hq : (a : ℚ) < (b : ℚ) := by exact_mod_cast hab
  have := mul_lt_mul_of_pos_left hq hstep
  linarith

theorem pairwise_filterMap_of {R : α → α → Prop} {S : β → β → Prop} (f : α → Option β)
    (h : ∀ a b x y, R a b → f a = some x → f b = some y → S x y) :
    ∀ l : List α, l.Pairwise R → (l.filterMap f).Pairwise S := by
  intro l
  induction l with
  | nil => intro _; simp
  | cons a l ih =>
    intro hl
    rw [List.pairwise_cons] at hl
    cases hfa : f a with
    | none =>
      rw [List.filterMap_cons_none hfa]
      exact ih hl.2
    | some x =>
      rw [List.filterMap_cons_some hfa]
      rw [List.pairwise_cons]
      refine ⟨?_, ih hl.2⟩
      intro y hy
      obtain ⟨b, hb, hfb⟩ := List.mem_filterMap.mp hy
      exact h a b x y (hl.1 b hb) hfa hfb

/-- The onset of a window chord is its window start (no confidence hypothesis
needed). -/
theorem analyzeWindow_onset (notes : List NoteEvent) (startT stopT : ℚ)
    (k : KeyEstimate) (c : ChordEvent)
    (hc : analyzeWindow notes startT stopT k = some c) : c.onset = startT := by
  match notes with
  | [] => simp [analyzeWindow] at hc
  | n0 :: ns =>
    simp only [analyzeWindow] at hc
    split at hc
    · simp at hc
    · split at hc
      · simp at hc
      · rw [Option.some_inj] at hc
        subst hc
        rfl

theorem detectChordsInWindows_sorted (events : List NoteEvent) (k : KeyEstimate) :
    (detectChordsInWindows events k).Pairwise fun a b => a.onset < b.onset := by
  match events with
  | [] => simp [detectChordsInWindows]
  | e0 :: es =>
    simp only [detectChordsInWindows]
    refine pairwise_filterMap_of _ ?_ _
      (windowStarts_pairwise _ _ _ (by norm_num [windowSize, windowOverlap]))
    intro t1 t2 c1 c2 hlt h1 h2
    split at h1
    · split at h2
      · rw [analyzeWindow_onset _ _ _ _ _ h1, analyzeWindow_onset _ _ _ _ _ h2]
        exact hlt
      · simp at h2
    · simp at h1

theorem emitRun_pairwise (cs : List ChordEvent) (sym : String) (a b : ℚ)
    {R : ChordEvent → ChordEvent → Prop} : (emitRun cs sym a b).Pairwise R := by
  unfold emitRun
  split
  · simp
  · split
    · simp
    · simp

theorem emitRun_onset (cs : List ChordEvent) (sym : String) (a b : ℚ) :
    ∀ x ∈ emitRun cs sym a b, x.onset = a := by
  intro x hx
  unfold emitRun at hx
  split at hx
  · simp at hx
  · split at hx
    · rw [List.mem_singleton] at hx
      subst hx
      rfl
    · simp at hx

/-- Sortedness invariant of the resegmentation loop. -/
theorem resegFold_sorted (cs : List ChordEvent) (syms : List String) (pts : List ℚ)
    (stopT : ℚ)
    (hmono : ∀ i j : ℕ, i ≤ j → j < pts.length → pts.getD i 0 ≤ pts.getD j 0) :
    ∀ (idxs : List ℕ) (cur : String) (st : ℚ) (acc : List ChordEvent),
      idxs.Pairwise (· < ·) → (∀ i ∈ idxs, i < pts.length) →
      (∀ i ∈ idxs, st ≤ pts.getD i 0) →
      acc.Pairwise (fun a b => a.onset ≤ b.onset) → (∀ x ∈ acc, x.onset ≤ st) →
      (resegFold cs syms pts stopT idxs cur st acc).Pairwise
        fun a b => a.onset ≤ b.onset := by
  intro idxs
  induction idxs with
  | nil =>
    intro cur st acc _ _ _ hacc hle
    simp only [resegFold]
    refine List.pairwise_append.mpr ⟨hacc, emitRun_pairwise _ _ _ _, ?_⟩
    intro a ha b hb
    rw [emitRun_onset _ _ _ _ b hb]
    exact hle a ha
  | cons i is ih =>
    intro cur st acc hpw hlen hge hacc hle
    have hpw' := List.pairwise_cons.mp hpw
    have hi : i < pts.length := hlen i (List.mem_cons_self _ _)
    have hsti : st ≤ pts.getD i 0 := hge i (List.mem_cons_self _ _)
    simp only [resegFold]
    split
    · refine ih _ _ _ hpw'.2 (fun j hj => hlen j (List.mem_cons_of_mem _ hj)) ?_ ?_ ?_
      · intro j hj
        exact hmono i j (le_of_lt (hpw'.1 j hj)) (hlen j (List.mem_cons_of_mem _ hj))
      · refine List.pairwise_append.mpr ⟨hacc, emitRun_pairwise _ _ _ _, ?_⟩
        intro a ha b hb
        rw [emitRun_onset _ _ _ _ b hb]
        exact hle a ha
      · intro x hx
        rcases List.mem_append.mp hx with h1 | h1
        · exact le_trans (hle x h1) hsti
        · rw [emitRun_onset _ _ _ _ x h1]
          exact hsti
    · exact ih _ _ _ hpw'.2 (fun j hj => hlen j (List.mem_cons_of_mem _ hj))
        (fun j hj => hge j (List.mem_cons_of_mem _ hj)) hacc hle

theorem smoothSymbols_length (symbols : List String) (fw : ℕ) :
    (smoothSymbols symbols fw).length = symbols.length := by
  simp [smoothSymbols]

theorem smoothChordProgression_sorted (cs : List ChordEvent)
    (h : cs.Pairwise fun a b => a.onset ≤ b.onset) :
    (smoothChordProgression cs).Pairwise fun a b => a.onset ≤ b.onset := by
  simp only [smoothChordProgression]
  split
  · exact h
  split
  · exact h
  split
  · rename_i hfw
    split
    · simp
    · rename_i s0 srest hsmoothed
      set pts := timelinePoints (listMinQ (cs.map (·.onset)))
        (listMaxQ (cs.map (·.offset))) timelineResolution with hpts
      rw [hsmoothed]
      have hsl : (s0 :: srest).length = pts.length := by
        rw [← hsmoothed, smoothSymbols_length, List.length_map]
      have hmono : ∀ i j : ℕ, i ≤ j → j < pts.length →
          pts.getD i 0 ≤ pts.getD j 0 := by
        intro i j hij hj
        rw [timelinePoints_getD _ _ _ i (lt_of_le_of_lt hij hj),
          timelinePoints_getD _ _ _ j hj]
        have hq : (i : ℚ) ≤ (j : ℚ) := by exact_mod_cast hij
        have h2 : (0 : ℚ) ≤ timelineResolution := by norm_num [timelineResolution]
        nlinarith
      have hbound : ∀ j ∈ List.range' 1 ((s0 :: srest).length - 1), j < pts.length := by
        intro j hj
        rw [List.mem_range'_1] at hj
        omega
      exact resegFold_sorted cs _ pts _ hmono _ _ _ []
        (List.pairwise_lt_range' _ _) hbound
        (fun j hj => hmono 0 j (Nat.zero_le j) (hbound j hj)) (by simp) (by simp)
  · exact h

theorem mergeSimilarChords_sorted (chords : List ChordEvent)
    (h : chords.Pairwise fun a b => a.onset ≤ b.onset) :
    (mergeSimilarChords chords).Pairwise fun a b => a.onset ≤ b.onset := by
  match chords with
  | [] => exact h
  | [c0] => exact h
  | c0 :: c1 :: rest =>
    have haux : ∀ (l : List ChordEvent) (cur : ChordEvent) (acc : List ChordEvent),
        ((cur :: l).Pairwise fun a b => a.onset ≤ b.onset) →
        (acc.Pairwise fun a b => a.onset ≤ b.onset) →
        (∀ x ∈ acc, x.onset ≤ cur.onset) →
        ((l.foldl mergeStep (cur, acc)).2 ++ [(l.foldl mergeStep (cur, acc)).1]).Pairwise
          fun a b => a.onset ≤ b.onset := by
      intro l
      induction l with
      | nil =>
        intro cur acc _ hacc hle
        refine List.pairwise_append.mpr ⟨hacc, List.pairwise_singleton _ _, ?_⟩
        intro a ha b hb
        rw [List.mem_singleton] at hb
        subst hb
        exact hle a ha
      | cons nxt l ih =>
        intro cur acc hsort hacc hle
        have hs := List.pairwise_cons.mp hsort
        simp only [List.foldl_cons]
        unfold mergeStep
        split
        · refine ih (mergeTwo cur nxt) acc ?_ hacc hle
          rw [List.pairwise_cons]
          refine ⟨?_, (List.pairwise_cons.mp hs.2).2⟩
          intro b hb
          show cur.onset ≤ b.onset
          exact hs.1 b (List.mem_cons_of_mem _ hb)
        · refine ih nxt (acc ++ [cur]) hs.2 ?_ ?_
          · refine List.pairwise_append.mpr ⟨hacc, List.pairwise_singleton _ _, ?_⟩
            intro a ha b hb
            rw [List.mem_singleton] at hb
            subst hb
            exact hle a ha
          · intro x hx
            rcases List.mem_append.mp hx with h1 | h1
            · exact le_trans (hle x h1) (hs.1 nxt (List.mem_cons_self _ _))
            · rw [List.mem_singleton] at h1
              subst h1
              exact hs.1 nxt (List.mem_cons_self _ _)
    exact haux (c1 :: rest) c0 [] h (by simp) (by simp)

/-- C2 (amended): the engine's final chord list is sorted by onset, for every input
note list and every correlation assignment.  (Pairwise non-overlap fails; see the
counterexample.) -/
theorem inferChords_onset_sorted (corr : Corr) (notes : List NoteEvent) :
    onsetSorted (inferChords corr notes).1 := by
  unfold onsetSorted
  simp only [inferChords]
  unfold ensureStability
  refine List.Pairwise.sublist (List.filter_sublist _) ?_
  refine mergeSimilarChords_sorted _ ?_
  refine smoothChordProgression_sorted _ ?_
  refine List.Pairwise.sublist (List.filter_sublist _) ?_
  exact (detectChordsInWindows_sorted _ _).imp (fun hab => le_of_lt hab)

/-! ## C1: invariants of the final output -/

theorem listMinNat_mem : ∀ (l : List ℕ), l ≠ [] → listMinNat l ∈ l := by
  intro l h
  match l with
  | x :: xs =>
    show xs.foldl min x ∈ x :: xs
    clear h
    induction xs generalizing x with
    | nil => simp
    | cons y ys ih =>
      simp only [List.foldl_cons]
      rcases List.mem_cons.mp (ih (min x y)) with h1 | h1
      · rcases min_choice x y with h2 | h2
        · rw [h1, h2]
          exact List.mem_cons_self _ _
        · rw [h1, h2]
          exact List.mem_cons_of_mem _ (List.mem_cons_self _ _)
      · exact List.mem_cons_of_mem _ (List.mem_cons_of_mem _ h1)

theorem smoothGroup_conf_bounds (notes : List NoteEvent) (p : ℕ)
    (h : ∀ n ∈ notes, 0 ≤ n.confidence ∧ n.confidence ≤ 1) :
    ∀ x ∈ smoothGroup notes p, 0 ≤ x.confidence ∧ x.confidence ≤ 1 := by
  intro x hx
  simp only [smoothGroup] at hx
  split at hx
  · exact h x (List.mem_of_mem_filter hx)
  · split at hx
    · obtain ⟨ec, hec, rfl⟩ := List.mem_map.mp hx
      have h2 := (List.of_mem_zip hec).2
      refine medfilt3_bounds _ ?_ _ h2
      intro y hy
      obtain ⟨m, hm, rfl⟩ := List.mem_map.mp hy
      rw [sortByLE_mem] at hm
      exact h m (List.mem_of_mem_filter hm)
    · rw [sortByLE_mem] at hx
      exact h x (List.mem_of_mem_filter hx)

theorem smoothPitchActivity_conf_bounds (notes : List NoteEvent)
    (h : ∀ n ∈ notes, 0 ≤ n.confidence ∧ n.confidence ≤ 1) :
    ∀ x ∈ smoothPitchActivity notes, 0 ≤ x.confidence ∧ x.confidence ≤ 1 := by
  intro x hx
  match notes, hx with
  | n0 :: ns, hx =>
    obtain ⟨q, _, hxq⟩ := List.mem_flatMap.mp hx
    exact smoothGroup_conf_bounds _ q h x hxq

theorem applyKeyFiltering_subset (events : List NoteEvent) (k : KeyEstimate) :
    ∀ x ∈ applyKeyFiltering events k, x ∈ events := by
  intro x hx
  unfold applyKeyFiltering at hx
  split at hx
  · exact hx
  · exact List.mem_of_mem_filter hx

theorem alAdd_nonneg (l : List (ℕ × ℚ)) (key : ℕ) (v : ℚ)
    (hl : ∀ p ∈ l, 0 ≤ p.2) (hv : 0 ≤ v) : ∀ p ∈ alAdd l key v, 0 ≤ p.2 := by
  intro p hp
  unfold alAdd at hp
  split at hp
  · obtain ⟨q, hq, rfl⟩ := List.mem_map.mp hp
    split
    · exact add_nonneg (hl q hq) hv
    · exact hl q hq
  · rcases List.mem_append.mp hp with h1 | h1
    · exact hl p h1
    · rw [List.mem_singleton] at h1
      subst h1
      exact hv

theorem windowPcWeights_nonneg (notes : List NoteEvent) (startT stopT : ℚ)
    (h : ∀ n ∈ notes, 0 ≤ n.confidence) :
    ∀ p ∈ windowPcWeights notes startT stopT, 0 ≤ p.2 := by
  unfold windowPcWeights
  suffices haux : ∀ (l : List NoteEvent) (acc : List (ℕ × ℚ)),
      (∀ n ∈ l, 0 ≤ n.confidence) → (∀ p ∈ acc, 0 ≤ p.2) →
      ∀ p ∈ l.foldl
        (fun d n =>
          let overlap := max 0 (min n.offset stopT - max n.onset startT)
          let w := if confidenceWeightDuration then n.confidence * overlap else n.confidence
          alAdd d n.pitchClass w)
        acc, 0 ≤ p.2 by
    exact haux notes [] h (by simp)
  intro l
  induction l with
  | nil => intro acc _ hacc; exact hacc
  | cons n ns ih =>
    intro acc hl hacc
    simp only [List.foldl_cons]
    refine ih _ (fun m hm => hl m (List.mem_cons_of_mem _ hm)) ?_
    refine alAdd_nonneg _ _ _ hacc ?_
    have hn := hl n (List.mem_cons_self _ _)
    split
    · exact mul_nonneg hn (le_max_left 0 _)
    · exact hn

/-- Every chord `_analyze_window` produces satisfies the invariant, and it spans
exactly its window. -/
theorem analyzeWindow_inv (notes : List NoteEvent) (startT stopT : ℚ) (k : KeyEstimate)
    (h : ∀ n ∈ notes, 0 ≤ n.confidence) (c : ChordEvent)
    (hc : analyzeWindow notes startT stopT k = some c) :
    ChordInv c ∧ c.onset = startT ∧ c.offset = stopT := by
  match notes with
  | [] => simp [analyzeWindow] at hc
  | n0 :: ns =>
    simp only [analyzeWindow] at hc
    split at hc
    · simp at hc
    · split at hc
      · simp at hc
      · rename_i hpcw hsig
        rw [Option.some_inj] at hc
        subst hc
        refine ⟨⟨?_, ?_, ?_⟩, rfl, rfl⟩
        · refine le_min ?_ (by norm_num)
          refine div_nonneg ?_ (by positivity)
          refine List.sum_nonneg ?_
          intro w hw
          obtain ⟨q, hq, rfl⟩ := List.mem_map.mp hw
          exact windowPcWeights_nonneg (n0 :: ns) startT stopT h q hq
        · exact min_le_right _ _
        · show listMinNat _ ∈ (List.toFinset _)
          rw [List.mem_toFinset]
          refine listMinNat_mem _ ?_
          intro hnil
          rw [not_lt] at hsig
          rw [hnil] at hsig
          simp [minNotesPerChord] at hsig

theorem detectChordsInWindows_inv (events : List NoteEvent) (k : KeyEstimate)
    (h : ∀ n ∈ events, 0 ≤ n.confidence) :
    ∀ c ∈ detectChordsInWindows events k, ChordInv c := by
  intro c hc
  match events, hc with
  | e0 :: es, hc =>
    simp only [detectChordsInWindows] at hc
    obtain ⟨t, _, hsome⟩ := List.mem_filterMap.mp hc
    split at hsome
    · refine (analyzeWindow_inv _ _ _ k ?_ c hsome).1
      intro n hn
      have := List.mem_of_mem_filter hn
      rw [sortByLE_mem] at this
      exact h n this
    · simp at hsome

theorem mergeTwo_inv (a b : ChordEvent) (ha : ChordInv a) (hb : ChordInv b) :
    ChordInv (mergeTwo a b) := by
  obtain ⟨ha1, ha2, ha3⟩ := ha
  obtain ⟨hb1, hb2, hb3⟩ := hb
  refine ⟨?_, ?_, ?_⟩
  · show 0 ≤ (a.confidence + b.confidence) / 2
    linarith
  · show (a.confidence + b.confidence) / 2 ≤ 1
    linarith
  · exact Finset.mem_union_left _ ha3

theorem mergeSimilarChords_inv (chords : List ChordEvent)
    (h : ∀ c ∈ chords, ChordInv c) : ∀ c ∈ mergeSimilarChords chords, ChordInv c := by
  match chords with
  | [] => intro c hc; simp [mergeSimilarChords] at hc
  | [c0] =>
    intro c hc
    rw [show mergeSimilarChords [c0] = [c0] from rfl, List.mem_singleton] at hc
    subst hc
    exact h c (List.mem_singleton_self _)
  | c0 :: c1 :: rest =>
    intro c hc
    have haux : ∀ (l : List ChordEvent) (cur : ChordEvent) (acc : List ChordEvent),
        ChordInv cur → (∀ x ∈ acc, ChordInv x) → (∀ x ∈ l, ChordInv x) →
        ∀ x ∈ (l.foldl mergeStep (cur, acc)).2 ++ [(l.foldl mergeStep (cur, acc)).1],
          ChordInv x := by
      intro l
      induction l with
      | nil =>
        intro cur acc hcur hacc _ x hx
        rcases List.mem_append.mp hx with h1 | h1
        · exact hacc x h1
        · rw [List.mem_singleton] at h1; subst h1; exact hcur
      | cons nxt l ih =>
        intro cur acc hcur hacc hl x hx
        simp only [List.foldl_cons] at hx
        unfold mergeStep at hx
        split at hx
        · exact ih _ _ (mergeTwo_inv cur nxt hcur (hl nxt (List.mem_cons_self _ _))) hacc
            (fun y hy => hl y (List.mem_cons_of_mem _ hy)) x hx
        · refine ih _ _ (hl nxt (List.mem_cons_self _ _)) ?_
            (fun y hy => hl y (List.mem_cons_of_mem _ hy)) x hx
          intro y hy
          rcases List.mem_append.mp hy with h1 | h1
          · exact hacc y h1
          · rw [List.mem_singleton] at h1; subst h1; exact hcur
    exact haux (c1 :: rest) c0 [] (h c0 (by simp)) (by simp)
      (fun x hx => h x (List.mem_cons_of_mem _ hx)) c hc

/-- C1: for every input note list with confidences in `[0,1]` and every correlation
assignment, every chord of the final output has confidence in `[0,1]`, lasts at
least the minimum chord duration (hence onset < offset), and has its root among its
pitch classes. -/
theorem inferChords_output_invariants (corr : Corr) (notes : List NoteEvent)
    (h : ∀ n ∈ notes, 0 ≤ n.confidence ∧ n.confidence ≤ 1) :
    ∀ c ∈ (inferChords corr notes).1,
      (0 ≤ c.confidence ∧ c.confidence ≤ 1) ∧
        minChordDuration ≤ c.offset - c.onset ∧ c.onset < c.offset ∧
        c.rootPc ∈ c.pitchClasses := by
  intro c hc
  simp only [inferChords] at hc
  unfold ensureStability at hc
  have hdur : minChordDuration ≤ c.offset - c.onset :=
    of_decide_eq_true (List.mem_filter.mp hc).2
  have hc' := (List.mem_filter.mp hc).1
  have h1 := smoothPitchActivity_conf_bounds notes h
  have h2 : ∀ n ∈ filterShortNotes (smoothPitchActivity notes),
      0 ≤ n.confidence ∧ n.confidence ≤ 1 :=
    fun n hn => h1 n (List.mem_of_mem_filter hn)
  set key := estimateKey corr (filterShortNotes (smoothPitchActivity notes)) true with hkey
  have h3 : ∀ n ∈ applyKeyFiltering (filterShortNotes (smoothPitchActivity notes)) key,
      0 ≤ n.confidence :=
    fun n hn => (h2 n (applyKeyFiltering_subset _ key n hn)).1
  have h4 := detectChordsInWindows_inv
    (applyKeyFiltering (filterShortNotes (smoothPitchActivity notes)) key) key h3
  have h5 : ∀ x ∈ applyHarmonyFiltering
      (detectChordsInWindows
        (applyKeyFiltering (filterShortNotes (smoothPitchActivity notes)) key) key) key,
      ChordInv x :=
    fun x hx => h4 x (List.mem_of_mem_filter hx)
  have h6 : ∀ x ∈ smoothChordProgression (applyHarmonyFiltering
      (detectChordsInWindows
        (applyKeyFiltering (filterShortNotes (smoothPitchActivity notes)) key) key) key),
      ChordInv x := by
    intro x hx
    rcases smoothChord_mem_meta _ x hx with hin | hmeta
    · exact h5 x hin
    · obtain ⟨_, o, ho, hconf, hpcs, hroot, _⟩ := hmeta
      have ho' := List.mem_of_find?_eq_some ho
      have hoinv := h5 o ho'
      exact ⟨by rw [hconf]; exact hoinv.1, by rw [hconf]; exact hoinv.2.1,
        by rw [hroot, hpcs]; exact hoinv.2.2⟩
  have h7 := mergeSimilarChords_inv _ h6 c hc'
  have hpos : (0 : ℚ) < minChordDuration := by norm_num [minChordDuration]
  exact ⟨⟨h7.1, h7.2.1⟩, hdur, by linarith, h7.2.2⟩

/-! ## C3: totality — the exception-explicit mirror always returns `ok` -/

theorem bindE_ok (a : α) (f : α → Except String β) : (Except.ok a >>= f) = f a := rfl

theorem bindE_pure_ok (a : α) (f : α → Except String β) :
    ((pure a : Except String α) >>= f) = f a := rfl

theorem qdivE_ok (a b : ℚ) (h : b ≠ 0) : qdivE a b = .ok (a / b) := by
  simp [qdivE, h]

theorem getE_ok (l : List α) (i : ℕ) (d : α) (h : i < l.length) :
    getE l i = .ok (l.getD i d) := by
  simp [getE, List.getElem?_eq_getElem h, List.getD_eq_getElem?_getD]

theorem listMinNatE_ok (l : List ℕ) (h : l ≠ []) : listMinNatE l = .ok (listMinNat l) := by
  cases l with
  | nil => exact absurd rfl h
  | cons x xs => rfl

theorem listMinQE_ok (l : List ℚ) (h : l ≠ []) : listMinQE l = .ok (listMinQ l) := by
  cases l with
  | nil => exact absurd rfl h
  | cons x xs => rfl

theorem listMaxQE_ok (l : List ℚ) (h : l ≠ []) : listMaxQE l = .ok (listMaxQ l) := by
  cases l with
  | nil => exact absurd rfl h
  | cons x xs => rfl

theorem noteNameE_ok (r : ℕ) (h : r < 12) : noteNameE r = .ok (noteNames.getD r "") := by
  simp [noteNameE, h]

theorem headD_eq_getD_zero (l : List α) (d : α) : l.headD d = l.getD 0 d := by
  cases l <;> rfl

theorem mapDivE_ok (s : ℚ) (hs : s ≠ 0) :
    ∀ l : List ℚ, mapDivE s l = .ok (l.map (· / s)) := by
  intro l
  induction l with
  | nil => rfl
  | cons x xs ih =>
    simp only [mapDivE, qdivE_ok x s hs, bindE_ok, ih, List.map_cons]

theorem estimateKeyCoreE_ok (corr : Corr) (filt : List NoteEvent) :
    estimateKeyCoreE corr filt = .ok (estimateKeyCore corr filt) := by
  simp only [estimateKeyCoreE, estimateKeyCore]
  split
  · rfl
  · rename_i hs
    rw [mapDivE_ok _ hs]
    simp only [bindE_ok]

theorem estimateKeyE_ok (corr : Corr) (notes : List NoteEvent) (b : Bool) :
    estimateKeyE corr notes b = .ok (estimateKey corr notes b) := by
  cases notes with
  | nil => rfl
  | cons n ns =>
    simp only [estimateKeyE, estimateKey]
    exact estimateKeyCoreE_ok corr _

theorem keyScan_fst_lt (corr : ℕ → Mode → ℚ) : (keyScan corr).1 < 12 := by
  obtain ⟨-, -, hcase⟩ :=
    scanG_spec (fun c : ℕ × Mode => corr c.1 c.2) (fun c => c) keyCands ((0, Mode.major), -1)
  have h1 : (keyScan corr).1 =
      (scanG (fun c : ℕ × Mode => corr c.1 c.2) (fun c => c) keyCands
        ((0, Mode.major), -1)).1.1 := by
    simp only [keyScan]
  rcases hcase with heq | ⟨pre, x, post, hl, hg, -, -, -⟩
  · rw [h1, heq]
    norm_num
  · rw [h1, hg]
    exact keyCands_fst_lt x (by rw [hl]; exact List.mem_append_right _ (List.mem_cons_self x post))

set_option maxRecDepth 4000 in
theorem estimateKeyCore_keyPc_lt (corr : Corr) (filt : List NoteEvent) :
    (estimateKeyCore corr filt).keyPc < 12 := by
  simp only [estimateKeyCore]
  split
  · show (0 : ℕ) < 12
    norm_num
  · exact keyScan_fst_lt _

theorem estimateKey_keyPc_lt (corr : Corr) (notes : List NoteEvent) (b : Bool) :
    (estimateKey corr notes b).keyPc < 12 := by
  simp only [estimateKey]
  split
  · show (0 : ℕ) < 12
    norm_num
  · exact estimateKeyCore_keyPc_lt corr _

theorem pitchClass_lt (n : NoteEvent) : n.pitchClass < 12 := by
  unfold NoteEvent.pitchClass
  omega

theorem alAdd_fst_lt (l : List (ℕ × ℚ)) (k : ℕ) (v : ℚ) (hl : ∀ p ∈ l, p.1 < 12)
    (hk : k < 12) : ∀ p ∈ alAdd l k v, p.1 < 12 := by
  unfold alAdd
  split
  · intro p hp
    obtain ⟨q, hq, hpq⟩ := List.mem_map.mp hp
    have h1 : p.1 = q.1 := by
      by_cases h : q.1 == k
      · rw [← hpq]; simp [h]
      · rw [← hpq]; simp [h]
    rw [h1]
    exact hl q hq
  · intro p hp
    rcases List.mem_append.mp hp with h | h
    · exact hl p h
    · rw [List.mem_singleton] at h
      subst h
      exact hk

theorem foldWeights_fst_lt (a b : ℚ) :
    ∀ (l : List NoteEvent) (d : List (ℕ × ℚ)), (∀ p ∈ d, p.1 < 12) →
      ∀ p ∈ l.foldl (fun d n =>
          let overlap := max 0 (min n.offset b - max n.onset a)
          let w := if confidenceWeightDuration then n.confidence * overlap else n.confidence
          alAdd d n.pitchClass w) d, p.1 < 12 := by
  intro l
  induction l with
  | nil =>
    intro d hd
    simpa using hd
  | cons n ns ih =>
    intro d hd
    rw [List.foldl_cons]
    exact ih _ (alAdd_fst_lt _ _ _ hd (pitchClass_lt n))

theorem windowPcWeights_fst_lt (notes : List NoteEvent) (a b : ℚ) :
    ∀ p ∈ windowPcWeights notes a b, p.1 < 12 :=
  foldWeights_fst_lt a b notes [] (by simp)

theorem rootStrengthBonusE_ok (pcw : List (ℕ × ℚ)) (pcs : List ℕ) (root : ℕ) :
    rootStrengthBonusE pcw pcs root = .ok (rootStrengthBonus pcw pcs root) := by
  simp only [rootStrengthBonusE, rootStrengthBonus]
  split
  · rfl
  · rename_i he
    have hne : pcw.map (·.2) ≠ [] := by
      cases pcw with
      | nil => exact absurd rfl he
      | cons p ps => simp
    rw [listMaxQE_ok _ hne]
    simp only [bindE_ok]
    by_cases hw : 0 < alGet pcw root
    · simp only [if_pos hw]
      have hmax : listMaxQ (pcw.map (·.2)) ≠ 0 := by
        rcases alGet_zero_or_mem pcw root with h0 | hm
        · rw [h0] at hw
          exact absurd hw (lt_irrefl 0)
        · exact ne_of_gt (lt_of_lt_of_le hw (le_listMaxQ _ _ hm))
      rw [qdivE_ok _ _ hmax]
      simp only [bindE_ok, bindE_pure_ok]
    · simp only [if_neg hw, bindE_pure_ok]

theorem shapeScoreE_ok (s : ChordShape) (iset : Finset ℕ) (rsb : ℚ) (root : ℕ)
    (k : KeyEstimate) (hcard : ((iset.card : ℕ) : ℚ) ≠ 0) :
    shapeScoreE s iset rsb root k = .ok (shapeScore s iset rsb root k) := by
  simp only [shapeScoreE, shapeScore, qdivE_ok _ _ hcard, bindE_ok]
  split <;> rfl

theorem identifyShapeStepE_ok (pcs : List ℕ) (k : KeyEstimate) (pcw : List (ℕ × ℚ))
    (root : ℕ) (best : Option (String × String) × ℚ) (s : ChordShape)
    (hcard : (((intervalsFrom root pcs).toFinset.card : ℕ) : ℚ) ≠ 0) :
    identifyShapeStepE pcs k (noteNames.getD root "") (rootStrengthBonus pcw pcs root)
        root best s
      = pure (identifyShapeStep pcs k pcw root best s) := by
  simp only [identifyShapeStepE, identifyShapeStep]
  by_cases hs : s.required ⊆ (intervalsFrom root pcs).toFinset
  · simp only [if_pos hs, shapeScoreE_ok _ _ _ _ _ hcard, bindE_ok]
  · simp only [if_neg hs]

theorem shapeFoldE_ok (pcs : List ℕ) (k : KeyEstimate) (pcw : List (ℕ × ℚ)) (root : ℕ)
    (hcard : (((intervalsFrom root pcs).toFinset.card : ℕ) : ℚ) ≠ 0) :
    ∀ (shapes : List ChordShape) (best : Option (String × String) × ℚ),
      shapes.foldlM (identifyShapeStepE pcs k (noteNames.getD root "")
          (rootStrengthBonus pcw pcs root) root) best
      = .ok (shapes.foldl (identifyShapeStep pcs k pcw root) best) := by
  intro shapes
  induction shapes with
  | nil => intro best; rfl
  | cons s ss ih =>
    intro best
    simp only [List.foldlM_cons, List.foldl_cons]
    rw [identifyShapeStepE_ok pcs k pcw root best s hcard, bindE_pure_ok]
    exact ih _

theorem identifyRootFoldE_ok (pcs : List ℕ) (k : KeyEstimate) (pcw : List (ℕ × ℚ))
    (best : Option (String × String) × ℚ) (root : ℕ) (hr : root < 12) (hpcs : pcs ≠ []) :
    identifyRootFoldE pcs k pcw best root = .ok (identifyRootFold pcs k pcw best root) := by
  have hne : (intervalsFrom root pcs).toFinset.Nonempty := by
    cases pcs with
    | nil => exact absurd rfl hpcs
    | cons a l =>
      refine ⟨(((a : ℤ) - (root : ℤ)) % 12).toNat, ?_⟩
      rw [List.mem_toFinset]
      unfold intervalsFrom
      exact List.mem_map.mpr ⟨a, List.mem_cons_self a l, rfl⟩
  have hcard : (((intervalsFrom root pcs).toFinset.card : ℕ) : ℚ) ≠ 0 :=
    Nat.cast_ne_zero.mpr (Finset.card_ne_zero.mpr hne)
  simp only [identifyRootFoldE, identifyRootFold, noteNameE_ok root hr,
    rootStrengthBonusE_ok, bindE_ok]
  exact shapeFoldE_ok pcs k pcw root hcard chordTests best

theorem rootFoldE_ok (pcs : List ℕ) (k : KeyEstimate) (pcw : List (ℕ × ℚ))
    (hpcs : pcs ≠ []) :
    ∀ (roots : List ℕ), (∀ r ∈ roots, r < 12) →
      ∀ best : Option (String × String) × ℚ,
        roots.foldlM (identifyRootFoldE pcs k pcw) best
          = .ok (roots.foldl (identifyRootFold pcs k pcw) best) := by
  intro roots
  induction roots with
  | nil => intro _ best; rfl
  | cons r rs ih =>
    intro hlt best
    simp only [List.foldlM_cons, List.foldl_cons,
      identifyRootFoldE_ok pcs k pcw best r (hlt r (List.mem_cons_self r rs)) hpcs, bindE_ok]
    exact ih (fun x hx => hlt x (List.mem_cons_of_mem r hx)) _

theorem identifyChordE_ok (pcs : List ℕ) (k : KeyEstimate) (pcw : List (ℕ × ℚ))
    (hlt : ∀ r ∈ pcs, r < 12) :
    identifyChordE pcs k pcw = .ok (identifyChord pcs k pcw) := by
  cases pcs with
  | nil => rfl
  | cons a l =>
    simp only [identifyChordE, identifyChord]
    rw [rootFoldE_ok (a :: l) k pcw (List.cons_ne_nil a l) (a :: l) hlt]
    simp only [bindE_ok]
    rcases hb : (List.foldl (identifyRootFold (a :: l) k pcw)
        ((none : Option (String × String)), (0 : ℚ)) (a :: l)).1 with _ | st
    · have hmn : listMinNat (a :: l) < 12 :=
        hlt _ (listMinNat_mem (a :: l) (List.cons_ne_nil a l))
      simp only [listMinNatE_ok (a :: l) (List.cons_ne_nil a l), bindE_ok,
        noteNameE_ok _ hmn]
    · rfl

theorem sig_lt_of (pcw : List (ℕ × ℚ)) (hpcw : ∀ p ∈ pcw, p.1 < 12)
    (le : (ℕ × ℚ) → (ℕ × ℚ) → Bool) (pred : ℕ × ℚ → Bool) (m : ℕ) :
    ∀ r ∈ (((sortByLE le pcw).filter pred).map (·.1)).take m, r < 12 := by
  intro r hr
  obtain ⟨q, hq, hqr⟩ := List.mem_map.mp (List.mem_of_mem_take hr)
  rw [← hqr]
  exact hpcw q ((sortByLE_mem le pcw q).mp (List.mem_of_mem_filter hq))

theorem analyzeWindowE_ok (notes : List NoteEvent) (startT stopT : ℚ) (k : KeyEstimate) :
    analyzeWindowE notes startT stopT k = .ok (analyzeWindow notes startT stopT k) := by
  cases notes with
  | nil => rfl
  | cons n ns =>
    simp only [analyzeWindowE, analyzeWindow]
    split
    · rfl
    · rename_i hemp
      have hWne : windowPcWeights (n :: ns) startT stopT ≠ [] := by
        intro hnil
        exact hemp (by rw [hnil]; rfl)
      have h0 : 0 < (sortByLE (fun a b => decide (b.2 ≤ a.2))
          (windowPcWeights (n :: ns) startT stopT)).length := by
        rw [sortByLE_length]
        exact List.length_pos.mpr hWne
      rw [getE_ok _ 0 ((0 : ℕ), (0 : ℚ)) h0]
      simp only [bindE_ok]
      rw [headD_eq_getD_zero]
      split
      · rfl
      · rename_i hg
        rw [not_lt] at hg
        have hS_ne := List.ne_nil_of_length_pos
          (lt_of_lt_of_le (by norm_num [minNotesPerChord] : 0 < minNotesPerChord) hg)
        rw [identifyChordE_ok _ k _
          (sig_lt_of _ (windowPcWeights_fst_lt (n :: ns) startT stopT) _ _ _)]
        simp only [bindE_ok]
        have hq : (((n :: ns).length : ℕ) : ℚ) ≠ 0 := Nat.cast_ne_zero.mpr (by simp)
        rw [qdivE_ok _ _ hq]
        simp only [bindE_ok]
        rw [listMinNatE_ok _ hS_ne]
        simp only [bindE_ok]

theorem windowFoldE_ok (sorted : List NoteEvent) (k : KeyEstimate) :
    ∀ (ts : List ℚ) (acc : List ChordEvent),
      ts.foldlM (windowStepE sorted k) acc
      = .ok (acc ++ ts.filterMap fun t =>
          let windowNotes := sorted.filter fun e => decide (e.onset < t + windowSize ∧ t < e.offset)
          if minNotesPerChord ≤ windowNotes.length then analyzeWindow windowNotes t (t + windowSize) k
          else none) := by
  intro ts
  induction ts with
  | nil =>
    intro acc
    simp only [List.foldlM_nil, List.filterMap_nil, List.append_nil]
    rfl
  | cons t ts ih =>
    intro acc
    simp only [List.foldlM_cons, List.filterMap_cons, windowStepE]
    by_cases hg : minNotesPerChord ≤
        (sorted.filter fun e => decide (e.onset < t + windowSize ∧ t < e.offset)).length
    · simp only [if_pos hg]
      rw [analyzeWindowE_ok]
      simp only [bindE_ok]
      rcases hA : analyzeWindow
          (sorted.filter fun e => decide (e.onset < t + windowSize ∧ t < e.offset))
          t (t + windowSize) k with _ | c
      · simp only [bindE_pure_ok]
        rw [ih]
      · simp only [bindE_pure_ok]
        rw [ih, List.append_assoc]
        rfl
    · simp only [if_neg hg, bindE_pure_ok]
      rw [ih]

theorem detectChordsInWindowsE_ok (events : List NoteEvent) (k : KeyEstimate) :
    detectChordsInWindowsE events k = .ok (detectChordsInWindows events k) := by
  cases events with
  | nil => rfl
  | cons e es =>
    simp only [detectChordsInWindowsE, detectChordsInWindows]
    have h0 : 0 < (sortByLE (fun a b => decide (a.onset ≤ b.onset)) (e :: es)).length := by
      rw [sortByLE_length]
      simp
    rw [getE_ok _ 0 default h0]
    simp only [bindE_ok]
    have hoffne : (sortByLE (fun a b => decide (a.onset ≤ b.onset)) (e :: es)).map (·.offset)
        ≠ [] := by
      intro hmap
      have hlen := congrArg List.length hmap
      rw [List.length_map, sortByLE_length] at hlen
      simp at hlen
    rw [listMaxQE_ok _ hoffne]
    simp only [bindE_ok]
    rw [headD_eq_getD_zero, windowFoldE_ok, List.nil_append]

theorem resegFoldE_ok (cs : List ChordEvent) (syms : List String) (pts : List ℚ)
    (stopT : ℚ) (hlen : pts.length = syms.length) :
    ∀ (idxs : List ℕ), (∀ i ∈ idxs, i < syms.length) →
      ∀ (cur : String) (st : ℚ) (acc : List ChordEvent),
        resegFoldE cs syms pts stopT idxs cur st acc
          = .ok (resegFold cs syms pts stopT idxs cur st acc) := by
  intro idxs
  induction idxs with
  | nil =>
    intro _ cur st acc
    rfl
  | cons i is ih =>
    intro hb cur st acc
    have hi : i < syms.length := hb i (List.mem_cons_self i is)
    have hip : i < pts.length := by rw [hlen]; exact hi
    have hip1 : i - 1 < pts.length := lt_of_le_of_lt (Nat.sub_le i 1) hip
    simp only [resegFoldE, resegFold, getE_ok syms i "N" hi, bindE_ok]
    by_cases hc : syms.getD i "N" ≠ cur ∨ i = syms.length - 1
    · simp only [if_pos hc, getE_ok pts (i - 1) (0 : ℚ) hip1, bindE_ok,
        getE_ok pts i (0 : ℚ) hip]
      exact ih (fun j hj => hb j (List.mem_cons_of_mem i hj)) _ _ _
    · simp only [if_neg hc]
      exact ih (fun j hj => hb j (List.mem_cons_of_mem i hj)) _ _ _

theorem smoothChordProgressionE_ok (cs : List ChordEvent) :
    smoothChordProgressionE cs = .ok (smoothChordProgression cs) := by
  simp only [smoothChordProgressionE, smoothChordProgression]
  split
  · rfl
  · rename_i h2
    have hcne : cs ≠ [] := by
      intro h
      subst h
      simp at h2
    have hone : cs.map (·.onset) ≠ [] := by
      intro hmap
      have hlen := congrArg List.length hmap
      rw [List.length_map] at hlen
      exact hcne (List.length_eq_zero.mp hlen)
    have hoff : cs.map (·.offset) ≠ [] := by
      intro hmap
      have hlen := congrArg List.length hmap
      rw [List.length_map] at hlen
      exact hcne (List.length_eq_zero.mp hlen)
    rw [listMinQE_ok _ hone]
    simp only [bindE_ok]
    rw [listMaxQE_ok _ hoff]
    simp only [bindE_ok]
    split
    · rfl
    · rename_i hspan
      have hle : listMinQ (cs.map (·.onset)) ≤ listMaxQ (cs.map (·.offset)) :=
        le_of_lt (sub_pos.mp (not_le.mp hspan))
      set pts := timelinePoints (listMinQ (cs.map (·.onset)))
        (listMaxQ (cs.map (·.offset))) timelineResolution with hpts
      have hpts0 : 0 < pts.length := by
        rw [hpts, timelinePoints_length _ _ _ hle]
        exact Nat.succ_pos _
      split
      · split
        · rfl
        · rename_i s0 srest hsmoothed
          rw [hsmoothed]
          rw [getE_ok pts 0 (0 : ℚ) hpts0]
          simp only [bindE_ok]
          have hsl : pts.length = (s0 :: srest).length := by
            rw [← hsmoothed, smoothSymbols_length, List.length_map]
          have hbound : ∀ j ∈ List.range' 1 ((s0 :: srest).length - 1),
              j < (s0 :: srest).length := by
            intro j hj
            rw [List.mem_range'_1] at hj
            omega
          rw [resegFoldE_ok cs (s0 :: srest) pts _ hsl _ hbound]
      · rfl

theorem inferChordsE_ok (corr : Corr) (noteEvents : List NoteEvent) :
    inferChordsE corr noteEvents = .ok (inferChords corr noteEvents) := by
  simp only [inferChordsE, inferChords, estimateKeyE_ok, detectChordsInWindowsE_ok,
    smoothChordProgressionE_ok, bindE_ok]

/-- C3: for every batch-well-typed input (a list of records whose fields may each be
missing or unconvertible) and every correlation assignment, the exception-explicit
mirror of `process_note_events` — in which every Python primitive that can raise
(list indexing, `min`/`max` of a possibly-empty sequence, division) is checked and
raises `IndexError`/`ValueError`/`ZeroDivisionError` exactly where the source would —
returns `ok` of the pure pipeline's result.  No exception propagates out of the
pipeline: it is total over the declared input domain. -/
theorem processNoteEventsE_ok (corr : Corr) (rawNotes : List RawNote) :
    processNoteEventsE corr rawNotes = .ok (processNoteEvents corr rawNotes) := by
  simp only [processNoteEventsE, processNoteEvents]
  cases hfm : rawNotes.filterMap parseNote with
  | nil => rfl
  | cons n ns =>
    have hk : (inferChords corr (n :: ns)).2.keyPc < 12 :=
      estimateKey_keyPc_lt corr (filterShortNotes (smoothPitchActivity (n :: ns))) true
    simp only [inferChordsE_ok, bindE_ok, noteNameE_ok _ hk]

section EvalC4C5

attribute [local semireducible] Rat.add Rat.mul Rat.sub Rat.inv Rat.ofScientific

set_option maxRecDepth 8000 in
/-- Witness for C4: a one-note input (so the histogram is nonzero) and a correlation
function that peaks at root 3 minor; the detector selects D# minor with confidence
`1/2`. -/
theorem estimateKey_selection_witness :
    estimateKey (fun _ r m => if r = 3 ∧ m = Mode.minor then 1/2 else 0)
        [⟨0, 1, 60, 1⟩] true = ⟨3, Mode.minor, 1/2⟩ :=
  ((estimateKey_selection (fun _ r m => if r = 3 ∧ m = Mode.minor then 1/2 else 0)
      [⟨0, 1, 60, 1⟩] (by decide) (by decide) (by decide)).1).trans (by decide)

/-- Counterexample for C5: with candidate list `[4, 0, 8]` (the detector supplies it
sorted by descending weight), weights `{4 ↦ 52, 0 ↦ 25, 8 ↦ 1}` and an uncertain key,
roots 4 and 0 tie exactly on the augmented-triad score, and the identifier keeps
root 4 (`"Eaug"`) — the first in iteration order — not the lowest tied root 0
(`"Caug"`) as the claim asserts. -/
theorem identifyChord_tie_not_lowest_root :
    identScore [4, 0, 8] ⟨5, .major, 0⟩ [(4, 52), (0, 25), (8, 1)]
        (4, ⟨{0, 4, 8}, "aug", "aug", 9⟩) =
      identScore [4, 0, 8] ⟨5, .major, 0⟩ [(4, 52), (0, 25), (8, 1)]
        (0, ⟨{0, 4, 8}, "aug", "aug", 9⟩) ∧
    identifyChord [4, 0, 8] ⟨5, .major, 0⟩ [(4, 52), (0, 25), (8, 1)] = ("Eaug", "aug") ∧
    ("Eaug", "aug") ≠ (("Caug", "aug") : String × String) := by
  refine ⟨by decide, by decide, by decide⟩

/-- Witness for the amended C5 theorem at the concrete tie input. -/
theorem identifyChord_spec_witness :
    ((∀ c ∈ identCands [4, 0, 8],
        ¬ c.2.required ⊆ (intervalsFrom c.1 [4, 0, 8]).toFinset) →
      identifyChord [4, 0, 8] ⟨5, .major, 0⟩ [(4, 52), (0, 25), (8, 1)] =
        (noteNames.getD (listMinNat [4, 0, 8]) "" ++ "?", "unknown")) ∧
    (∀ c0 ∈ identCands [4, 0, 8],
      c0.2.required ⊆ (intervalsFrom c0.1 [4, 0, 8]).toFinset →
      ∃ pre x post, identCands [4, 0, 8] = pre ++ x :: post ∧
        x.2.required ⊆ (intervalsFrom x.1 [4, 0, 8]).toFinset ∧
        identifyChord [4, 0, 8] ⟨5, .major, 0⟩ [(4, 52), (0, 25), (8, 1)] =
          (noteNames.getD x.1 "" ++ x.2.suffix, x.2.ctype) ∧
        (∀ c ∈ identCands [4, 0, 8],
          identScore [4, 0, 8] ⟨5, .major, 0⟩ [(4, 52), (0, 25), (8, 1)] c ≤
            identScore [4, 0, 8] ⟨5, .major, 0⟩ [(4, 52), (0, 25), (8, 1)] x) ∧
        (∀ c ∈ pre,
          identScore [4, 0, 8] ⟨5, .major, 0⟩ [(4, 52), (0, 25), (8, 1)] c <
            identScore [4, 0, 8] ⟨5, .major, 0⟩ [(4, 52), (0, 25), (8, 1)] x)) :=
  identifyChord_spec [4, 0, 8] ⟨5, .major, 0⟩ [(4, 52), (0, 25), (8, 1)] (by decide)

end EvalC4C5

section EvalC6C7

attribute [local semireducible] Rat.add Rat.mul Rat.sub Rat.inv Rat.ofScientific

/-- Counterexample for C6: on a single pitch-class group with confidences
`[0.8, 0.2, 0.5]` the code (zero-padding `scipy.signal.medfilt`) produces
`[0.2, 0.5, 0.2]`, while the claimed symmetric/edge-replicated median filter would
produce `[0.8, 0.5, 0.5]`. -/
theorem smoothPitchActivity_not_edge_replicated :
    ((smoothPitchActivity
        [⟨0, 1, 60, 8/10⟩, ⟨1, 2, 60, 2/10⟩, ⟨2, 3, 60, 5/10⟩]).map (·.confidence)) =
        [2/10, 5/10, 2/10] ∧
      specMedfilt3EdgeReplicated [8/10, 2/10, 5/10] = [8/10, 5/10, 5/10] ∧
      ([2/10, 5/10, 2/10] : List ℚ) ≠ [8/10, 5/10, 5/10] := by
  refine ⟨by decide, by decide, by decide⟩

/-- Counterexample for C7: three consecutive `"C"` chords smooth to a single
all-`"C"` label run, yet the resegmentation emits two chords — `[0,3)` and the
zero-length `[3,3)` — both with symbol `"C"`: the final run is split and two
consecutive output chords carry the same symbol. -/
theorem smoothChordProgression_splits_last_run :
    (smoothChordProgression
        [⟨0, 1, "C", 1/2, {0, 4, 7}, 0, "major"⟩,
         ⟨1, 2, "C", 1/2, {0, 4, 7}, 0, "major"⟩,
         ⟨2, 3, "C", 1/2, {0, 4, 7}, 0, "major"⟩]).map
        (fun c => (c.onset, c.offset, c.chordSymbol)) = [(0, 3, "C"), (3, 3, "C")] := by
  decide

/-- Witness for the amended C7 theorem at the first output chord of the concrete
three-chord input. -/
theorem smoothChordProgression_meta_witness :
    (⟨0, 3, "C", 1/2, {0, 4, 7}, 0, "major"⟩ : ChordEvent) ∈
        [(⟨0, 1, "C", 1/2, {0, 4, 7}, 0, "major"⟩ : ChordEvent),
         ⟨1, 2, "C", 1/2, {0, 4, 7}, 0, "major"⟩,
         ⟨2, 3, "C", 1/2, {0, 4, 7}, 0, "major"⟩] ∨
      CopiedMeta
        [⟨0, 1, "C", 1/2, {0, 4, 7}, 0, "major"⟩,
         ⟨1, 2, "C", 1/2, {0, 4, 7}, 0, "major"⟩,
         ⟨2, 3, "C", 1/2, {0, 4, 7}, 0, "major"⟩]
        ⟨0, 3, "C", 1/2, {0, 4, 7}, 0, "major"⟩ :=
  smoothChordProgression_meta _ _ (by decide)

end EvalC6C7

section EvalC2C8

attribute [local semireducible] Rat.add Rat.mul Rat.sub Rat.inv Rat.ofScientific

/-- Witness for C8: a record with a missing onset is skipped; alone it yields the
default output, and prepended to an empty batch it changes nothing. -/
theorem processNoteEvents_invalid_witness :
    (processNoteEvents corrZero [⟨none, some 1, some 60, some 1⟩] =
      ([], ⟨"C", "major", 0⟩)) ∧
    processNoteEvents corrZero [⟨none, some 1, some 60, some 1⟩] =
      processNoteEvents corrZero [] :=
  ⟨(processNoteEvents_invalid corrZero [⟨none, some 1, some 60, some 1⟩]).1 (by decide),
   (processNoteEvents_invalid corrZero []).2 ⟨none, some 1, some 60, some 1⟩ (by decide)⟩

set_option maxRecDepth 40000 in
/-- Counterexample for C2: four zero-confidence notes (so the key estimate takes the
zero-weight early return and the correlation is never consulted) produce two
overlapping windowed chords `C [0, 2)` and `D [1.8, 3.8)` with different symbols;
the window smoother passes through (only 2 chords), the merger does not merge them,
and the final output is overlapping. -/
theorem inferChords_overlap_counterexample :
    (inferChords corrZero
        [⟨0, 9/5, 60, 0⟩, ⟨0, 9/5, 64, 0⟩, ⟨2, 7/2, 62, 0⟩, ⟨2, 7/2, 69, 0⟩]).1 =
      [⟨0, 2, "C", 0, {0, 4}, 0, "major"⟩, ⟨9/5, 19/5, "D", 0, {2, 9}, 2, "major"⟩] ∧
    ¬ pairwiseNonOverlapping
      (inferChords corrZero
        [⟨0, 9/5, 60, 0⟩, ⟨0, 9/5, 64, 0⟩, ⟨2, 7/2, 62, 0⟩, ⟨2, 7/2, 69, 0⟩]).1 := by
  have h : (inferChords corrZero
      [⟨0, 9/5, 60, 0⟩, ⟨0, 9/5, 64, 0⟩, ⟨2, 7/2, 62, 0⟩, ⟨2, 7/2, 69, 0⟩]).1 =
      [⟨0, 2, "C", 0, {0, 4}, 0, "major"⟩, ⟨9/5, 19/5, "D", 0, {2, 9}, 2, "major"⟩] := by
    decide
  refine ⟨h, ?_⟩
  rw [pairwiseNonOverlapping, h]
  intro hp
  have hd := (List.pairwise_cons.mp hp).1 ⟨9/5, 19/5, "D", 0, {2, 9}, 2, "major"⟩ (by simp)
  rcases hd with h1 | h1 <;> revert h1 <;> decide

set_option maxRecDepth 40000 in
/-- Witness for C1 at the first output chord of a concrete four-note input. -/
theorem inferChords_output_invariants_witness :
    (0 ≤ (⟨0, 2, "C", 0, {0, 4}, 0, "major"⟩ : ChordEvent).confidence ∧
        (⟨0, 2, "C", 0, {0, 4}, 0, "major"⟩ : ChordEvent).confidence ≤ 1) ∧
      minChordDuration ≤ (⟨0, 2, "C", 0, {0, 4}, 0, "major"⟩ : ChordEvent).offset -
          (⟨0, 2, "C", 0, {0, 4}, 0, "major"⟩ : ChordEvent).onset ∧
        (⟨0, 2, "C", 0, {0, 4}, 0, "major"⟩ : ChordEvent).onset <
            (⟨0, 2, "C", 0, {0, 4}, 0, "major"⟩ : ChordEvent).offset ∧
          (⟨0, 2, "C", 0, {0, 4}, 0, "major"⟩ : ChordEvent).rootPc ∈
            (⟨0, 2, "C", 0, {0, 4}, 0, "major"⟩ : ChordEvent).pitchClasses :=
  inferChords_output_invariants corrZero
    [⟨0, 9/5, 60, 0⟩, ⟨0, 9/5, 64, 0⟩, ⟨2, 7/2, 62, 0⟩, ⟨2, 7/2, 69, 0⟩]
    (by decide) ⟨0, 2, "C", 0, {0, 4}, 0, "major"⟩ (by decide)

end EvalC2C8

end Amadeus
